import Mathlib

/-!
# Verification of the time-bucket rollup pipeline (data-vis-streamlit)

Shallow embedding of the hourly rollup builder (`src/preprocess_data.py`,
`process_data_background` with its inner helpers `count_records_per_hour`
and `to_dict_format`) and of the in-dashboard re-aggregators
(`src/app.py`, `sum_by_day` / `sum_by_month`).

Modelling conventions:

* Timestamps (`dtime`) are minutes since an arbitrary epoch (`Nat`).  The
  pandas hour floor `dt.floor('h')` followed by `strftime('%Y-%m-%d-%H')`
  is injective and order preserving on whole hours, so an hour label is
  modelled as the hour number `t / 60`.
* A Mongo record is modelled with its parsed timestamp, its stringified
  `_id`, and the five optional categorical fields (`module`, `_label`,
  `method`, `repo`, `_group`).  A missing field is `none`
  (pandas represents it as a missing value; `groupby` drops such keys and
  elementwise comparison with it yields `False`).  Records whose `dtime`
  fails to parse become `NaT` and are excluded by every timestamp
  comparison, so they behave exactly like records outside the range and
  are not modelled separately.  The `nonce` payload only feeds the unused
  usage-time columns and is assumed well formed.
* Categorical values are JSON scalars (`JVal`): strings, numbers or
  booleans.  Python `dict`s are association lists with insert-or-overwrite
  semantics preserving insertion order (`dictInsert`), exactly like
  `dict.__setitem__`.
* `pandas.sort_values` (an unstable quicksort) is modelled by insertion
  sort on the timestamp; no claim depends on the relative order of records
  sharing a timestamp.
* Fallible Python code (a `try:`/`except:` body) is modelled in `Except` /
  `Option`: a raised exception becomes the error value.
-/

namespace DataVis

/-! ## Python string ordering

Code-point lexicographic comparison, the order Python (and hence
`groupby(sort=True)` in pandas) uses on `str` keys. -/
/-- Code-point lexicographic comparison of character lists. -/
def lexLt : List Char → List Char → Bool
  | [], [] => false
  | [], _ :: _ => true
  | _ :: _, [] => false
  | a :: as, b :: bs =>
    if a.toNat < b.toNat then true
    else if b.toNat < a.toNat then false
    else lexLt as bs

/-- Python `s < t` on strings. -/
def strLt (s t : String) : Bool := lexLt s.data t.data

/-- Strict code-point order on strings as a `Prop`. -/
def sLt (s t : String) : Prop := strLt s t = true

section
variable {K V : Type} [DecidableEq K]

/-! ## Python dictionaries

An association list with `dict.__setitem__` semantics: overwriting keeps
the key's original position, a new key is appended at the end. -/
/-- `d[k] = v` on a Python dict. -/
def dictInsert : List (K × V) → K → V → List (K × V)
  | [], k, v => [(k, v)]
  | (k', v') :: rest, k, v =>
    if k' = k then (k, v) :: rest else (k', v') :: dictInsert rest k v

/-- `d[k]` / `d.get(k)` on a Python dict (first, hence unique, binding). -/
def dictGet (d : List (K × V)) (k : K) : Option V :=
  (d.find? (fun p => p.1 = k)).map (fun p => p.2)

/-- Remove the first binding of key `k` (helper for `delKey`). -/
def delFirst : List (K × V) → K → List (K × V)
  | [], _ => []
  | (k', v') :: rest, k => if k' = k then rest else (k', v') :: delFirst rest k

/-- `del d[k]`: remove the binding, reporting `none` (a `KeyError`) when
the key is absent. -/
def delKey (d : List (K × V)) (k : K) : Option (List (K × V)) :=
  if (d.find? (fun p => p.1 = k)).isSome then some (delFirst d k) else none

/-- `acc.update(d)`: insert every binding of `d` into `acc`, in order. -/
def insertAll (acc d : List (K × V)) : List (K × V) :=
  d.foldl (fun a p => dictInsert a p.1 p.2) acc

end

section
variable {α : Type} [DecidableEq α]

/-! ## First-seen deduplication (`pandas.unique`, `Series.nunique`) -/
/-- Distinct elements of `l` in order of first appearance, as
`pandas.unique` returns them (recursive specification). -/
def uniqueFSRec : List α → List α
  | [] => []
  | x :: xs => x :: uniqueFSRec (xs.filter (fun y => y ≠ x))
termination_by l => l.length
decreasing_by
  exact Nat.lt_succ_of_le (List.length_filter_le _ xs)

/-- Fuelled implementation of `uniqueFSRec`, so that concrete runs reduce
inside the kernel. -/
def uniqueFSGo : Nat → List α → List α
  | _, [] => []
  | 0, _ :: _ => []
  | fuel + 1, x :: xs => x :: uniqueFSGo fuel (xs.filter (fun y => y ≠ x))

/-- Distinct elements of `l` in order of first appearance, as
`pandas.unique` returns them. -/
def uniqueFS (l : List α) : List α := uniqueFSGo l.length l

end

/-! ## Sorted grouping keys (`groupby(sort=True)`) -/
/-- Insert a string into an ascending duplicate-free list, keeping it
ascending and duplicate free. -/
def insertSD (x : String) : List String → List String
  | [] => [x]
  | y :: ys =>
    if strLt x y then x :: y :: ys
    else if x = y then y :: ys
    else y :: insertSD x ys

/-- The distinct elements of `l` in ascending code-point order: the group
keys produced by `groupby(sort=True)`. -/
def sortDedup (l : List String) : List String :=
  l.foldl (fun acc x => insertSD x acc) []

/-! ## The hourly rollup builder (`src/preprocess_data.py`) -/
/-- A JSON scalar: the value of a categorical record field. -/
inductive JVal where
  | str : String → JVal
  | num : Int → JVal
  | bool : Bool → JVal
deriving DecidableEq, Repr

/-- A Mongo record as it reaches the builder: parsed `dtime` (minutes),
stringified `_id`, and the five optional categorical fields.  The Lean
field `label` stands for the source field `_label` and `group` for
`_group`. -/
structure Record where
  t : Nat
  id : String
  module : Option JVal
  label : Option JVal
  method : Option JVal
  repo : Option JVal
  group : Option JVal
deriving DecidableEq, Repr

/-- `pd.date_range(start=start_date, end=end_date, freq='h')`: the instants
`start`, `start + 1h`, `start + 2h`, … while they do not exceed `end`;
empty when `start > end`.  `pd.date_range` anchors at `start` and derives
the period count from `(end - start) // freq + 1` — it does not floor its
endpoints. -/
def date_range (s e : Nat) : List Nat :=
  if s > e then [] else List.range' s ((e - s) / 60 + 1) 60

/-- A value of the per-field result dict built by `to_dict_format`: the
`"<field>_index"` key holds the list of observed values, every other key a
list of per-hour counts. -/
inductive PEntry where
  | idx : List (Option JVal) → PEntry
  | counts : List Nat → PEntry
deriving DecidableEq, Repr

/-- `count_records_per_hour(field)` (preprocess_data.py lines 80–84):
group `df_filtered` by `(datetime.floor('h'), field)` and count rows per
group.  pandas `groupby` drops rows whose field value is missing, so only
`some` values appear as group keys; the hour key is kept as the hour
number (the `strftime('%Y-%m-%d-%H')` label). -/
def count_records_per_hour (df_filtered : List Record)
    (f : Record → Option JVal) : List ((Nat × JVal) × Nat) :=
  (uniqueFS (df_filtered.filterMap
    (fun r => (f r).map (fun v => (r.t / 60, v))))).map (fun g =>
      (g, df_filtered.countP (fun r => r.t / 60 = g.1 ∧ f r = some g.2)))

/-- `to_dict_format(counts_per_hour, field)` (preprocess_data.py lines
94–111).  The dict starts with `"<field>_index"` mapped to
`df_filtered[field].unique()` and then, for each observed value, the
per-hour count list aligned to `all_hours_str`; an absent `(hour, value)`
group contributes `0`.  A missing value (`None`) compares unequal to every
group row (`counts_per_hour[field] == None` is elementwise `False`), so
its count list is all zeros.  Keys are the raw Python values, the index
key being the string `"<field>_index"`; `result[value] = …` overwrites any
earlier binding of an equal key.  `tdfEntry` is the element expression of
the list comprehension at lines 105–110: the stored count for hour `hour`
and value `v` — the matching group's count when one exists, else `0`; for
`v = None` the guard `(counts_per_hour[field] == value).any()` is always
false (elementwise comparison with a missing value), so the entry is
`0`. -/
def tdfEntry (counts_per_hour : List ((Nat × JVal) × Nat))
    (v : Option JVal) (hour : Nat) : Nat :=
  match v with
  | none => 0
  | some jv =>
    match counts_per_hour.find? (fun g => g.1.1 = hour ∧ g.1.2 = jv) with
    | some g => g.2
    | none => 0

def to_dict_format (counts_per_hour : List ((Nat × JVal) × Nat))
    (df_filtered : List Record) (f : Record → Option JVal) (field : String)
    (all_hours_str : List Nat) : List (Option JVal × PEntry) :=
  let field_values := uniqueFS (df_filtered.map f)
  let init : List (Option JVal × PEntry) :=
    [(some (JVal.str (field ++ "_index")), PEntry.idx field_values)]
  field_values.foldl (fun result v =>
    dictInsert result v
      (PEntry.counts (all_hours_str.map (tdfEntry counts_per_hour v)))) init

/-- `df_filtered.groupby(datetime.floor('h'))["_id"].nunique()` reindexed
over `all_hours_str` with `fill_value=0` (preprocess_data.py lines
113–115). -/
def log_counts_series (df_filtered : List Record)
    (all_hours_str : List Nat) : List Nat :=
  let grouped := (uniqueFS (df_filtered.map (fun r => r.t / 60))).map (fun h =>
    (h, (uniqueFS ((df_filtered.filter (fun r => r.t / 60 = h)).map
      (fun r => r.id))).length))
  all_hours_str.map (fun h =>
    match grouped.find? (fun g => g.1 = h) with
    | some g => g.2
    | none => 0)

/-- The `data` dict assembled at preprocess_data.py lines 125–133 and
written to `measurement/<collection>_graph.json`. -/
structure HourlyArtifact where
  dates : List Nat
  module_counts_per_hour : List (Option JVal × PEntry)
  label_counts_per_hour : List (Option JVal × PEntry)
  method_counts_per_hour : List (Option JVal × PEntry)
  repo_counts_per_hour : List (Option JVal × PEntry)
  log_counts_per_hour : List Nat
  group_counts_per_hour : List (Option JVal × PEntry)
deriving DecidableEq, Repr

/-- `process_data_background(connection_string, database_name,
collection_name, filters)` (preprocess_data.py lines 11–158), with the
Mongo query result made explicit: `collection` is the station's full
collection and the query keeps the records with
`start_date <= dtime <= end_date` (both filter bounds are given by every
claim considered here).  When the query returns nothing the empty
`DataFrame` has no `nonce` column, so line 52 raises a `KeyError` which
the `except` clause at line 156 turns into a logged error and a `False`
return value, modelled as `Except.error`. -/
def process_data_background (collection : List Record)
    (start_date end_date : Nat) : Except String HourlyArtifact :=
  let data := collection.filter
    (fun r => start_date ≤ r.t ∧ r.t ≤ end_date)
  if data.isEmpty then
    Except.error "KeyError: nonce"
  else
    let df := data.insertionSort (fun a b => a.t ≤ b.t)
    let df_filtered := df.filter (fun r => start_date ≤ r.t ∧ r.t ≤ end_date)
    let all_hours := date_range start_date end_date
    let all_hours_str := all_hours.map (fun t => t / 60)
    Except.ok
      { dates := all_hours_str
        module_counts_per_hour :=
          to_dict_format (count_records_per_hour df_filtered Record.module)
            df_filtered Record.module "module" all_hours_str
        label_counts_per_hour :=
          to_dict_format (count_records_per_hour df_filtered Record.label)
            df_filtered Record.label "_label" all_hours_str
        method_counts_per_hour :=
          to_dict_format (count_records_per_hour df_filtered Record.method)
            df_filtered Record.method "method" all_hours_str
        repo_counts_per_hour :=
          to_dict_format (count_records_per_hour df_filtered Record.repo)
            df_filtered Record.repo "repo" all_hours_str
        log_counts_per_hour := log_counts_series df_filtered all_hours_str
        group_counts_per_hour :=
          to_dict_format (count_records_per_hour df_filtered Record.group)
            df_filtered Record.group "_group" all_hours_str }

/-! ## JSON serialization of a builder table (`json.dump`, line 151)

JSON object keys are always strings, so `json.dump` must render each dict
key — but which spelling a non-string key gets, or whether serialization
raises at all, depends on the pandas dtype the key came out of:
`df_filtered[field].unique()` on a homogeneous numeric or boolean column
yields `np.int64` / `np.bool_` keys, which `json.dump` rejects with
`TypeError` (caught at line 156: the builder returns `False` and writes no
artifact), while a float column renders `5.0`.  Only keys that are Python
`str` or `None` — what the object-dtype columns of string-valued or
null-carrying dimensions produce — serialize the same way regardless of
dtype: the string itself, and `None → "null"`.  The model covers exactly
those keys and declines the rest.  The values — the index lists included —
are JSON-encoded with their types unchanged. -/
/-- The string `json.dump` writes for a `str` or `None` dict key; `none`
for the dtype-dependent numeric and boolean keys the model declines to
describe. -/
def jsonKeyStrNull : Option JVal → Option String
  | none => some "null"
  | some (JVal.str s) => some s
  | some (JVal.num _) => none
  | some (JVal.bool _) => none

/-- A `to_dict_format` dict after the `json.dump` / `json.load` round
trip, defined when every key is a `str` or `None`: keys stringified,
entries unchanged. -/
def serializeTable : List (Option JVal × PEntry) →
    Option (List (String × PEntry))
  | [] => some []
  | p :: rest =>
    match jsonKeyStrNull p.1 with
    | none => none
    | some k => (serializeTable rest).map (fun r => (k, p.2) :: r)

/-- C7 collection: an in-range record with a null `module` alongside one
with the string module "A" (an object-dtype column, so the null survives
to pandas as Python `None`). -/
def c7coll : List Record :=
  [⟨0, "r1", none, none, none, none, none⟩,
   ⟨0, "r2", some (JVal.str "A"), none, none, none, none⟩]

/-! ## The dashboard re-aggregators (`src/app.py`, `sum_by_day` lines
410–497 and `sum_by_month` lines 499–586)

Both functions load `<station>_graph.json` and run the same body; the only
differences are the label truncation width (`d[:10]` versus `d[:7]`) and
the result key suffix.  The shared body is `sum_by_trunc`.  A loaded JSON
artifact may be missing keys, so every field of `LoadedGraph` is an
`Option`. -/
/-- Python `str(index)` combined with the dashboard's special case
`if index == None: index_t = "null"` (app.py lines 444–448). -/
def pyStr : Option JVal → String
  | none => "null"
  | some (JVal.str s) => s
  | some (JVal.num n) => toString n
  | some (JVal.bool b) => cond b "True" "False"

/-- Iterating a loaded table entry, as `for index in table["<f>_index"]`
does: an index list yields its values, a count list yields its numbers. -/
def entryElems : PEntry → List (Option JVal)
  | PEntry.idx l => l
  | PEntry.counts l => l.map (fun n => some (JVal.num (Int.ofNat n)))

/-- A parsed `<station>_graph.json`, any key possibly absent. -/
structure LoadedGraph where
  dates : Option (List String)
  module_counts_per_hour : Option (List (String × PEntry))
  label_counts_per_hour : Option (List (String × PEntry))
  method_counts_per_hour : Option (List (String × PEntry))
  repo_counts_per_hour : Option (List (String × PEntry))
  log_counts_per_hour : Option (List Nat)
  group_counts_per_hour : Option (List (String × PEntry))
deriving DecidableEq, Repr

/-- The columns handed to `pd.DataFrame({...})`: every remaining entry
must be a count list.  (A stray index-shaped value under a non-index key
would become an object column whose `groupby().sum()` semantics no claim
exercises; the model declines it.) -/
def colsOf : List (String × PEntry) → Option (List (String × List Nat))
  | [] => some []
  | (k, PEntry.counts l) :: rest => (colsOf rest).map (fun cs => (k, l) :: cs)
  | (_, PEntry.idx _) :: _ => none

/-- One column of `groupby("date").sum().reset_index()`: for each distinct
coarse label in ascending order, the sum of the column entries at the
positions bearing that label. -/
def aggColumn (truncs : List String) (col : List Nat) (dkeys : List String) :
    List Nat :=
  dkeys.map (fun k =>
    (((truncs.zip col).filter (fun q => q.1 = k)).map Prod.snd).sum)

/-- The loop `for index in hourly_data["<f>_counts_per_hour"]["<f>_index"]`
building `<f>_count_per_day[index_t] = daily_aggregated[index_t].tolist()`
after `<f>_count_per_day["<f>_index"]` was set to the hourly index list.
A label absent from the aggregated columns raises a `KeyError` (`none`).
(The aggregated frame also exposes its `"date"` column; an index entry
literally named `"date"` would read back the label strings — a corner the
model reports as `none` and no claim exercises.) -/
def buildPerDim (agg : List (String × List Nat)) (idxList : List (Option JVal))
    (idxKeyName : String) : Option (List (String × PEntry)) :=
  idxList.foldlM (fun acc e =>
    (dictGet agg (pyStr e)).map (fun col =>
      dictInsert acc (pyStr e) (PEntry.counts col)))
    [(idxKeyName, PEntry.idx idxList)]

/-- The value returned by `sum_by_day` / `sum_by_month` on success
(the `daily_result` / `monthly_result` dict; field names here drop the
`_per_day` / `_per_month` suffix since the body is shared). -/
structure ReAggResult where
  dates : List String
  module_counts : List (String × PEntry)
  label_counts : List (String × PEntry)
  method_counts : List (String × PEntry)
  repo_counts : List (String × PEntry)
  group_counts : List (String × PEntry)
  log_counts : List Nat
deriving DecidableEq, Repr

/-- The merge `{"date": ..., **module, **label, **method, **repo, **log,
**group}` handed to `pd.DataFrame` (app.py lines 428–436 / 517–525), the
`"date"` column kept aside.  Later dicts overwrite equal keys. -/
def mergedColumns (module label method repo : List (String × PEntry))
    (log : List Nat) (group : List (String × PEntry)) :
    List (String × PEntry) :=
  insertAll (insertAll (insertAll (insertAll (insertAll
    (insertAll [] module) label) method) repo)
    [("log_counts_per_hour", PEntry.counts log)]) group

/-- The aggregation stage shared by `sum_by_day` / `sum_by_month` once the
index keys have been deleted: build the DataFrame (equal column lengths,
else `ValueError`), `groupby("date").sum()` over the truncated labels, and
assemble the per-dimension result dicts.  `mt`…`gt` are the original
(undeleted) hourly tables the loops read their index lists from. -/
def reaggregate (w : Nat) (mt lt met rt gt : List (String × PEntry))
    (merged : List (String × PEntry)) (ds : List String) :
    Option ReAggResult := do
  let truncs := ds.map (fun d => d.take w)
  -- a dimension value key literally named "date" would overwrite the
  -- DataFrame's label column and pandas would group over counts; the
  -- model declines this corner, which no claim exercises
  if "date" ∈ merged.map Prod.fst then none
  else do
    let cols ← colsOf merged
    if cols.all (fun p => p.2.length = truncs.length) then do
      let dkeys := sortDedup truncs
      let agg := cols.map (fun p => (p.1, aggColumn truncs p.2 dkeys))
      let mIdxE ← dictGet mt "module_index"
      let mDay ← buildPerDim agg (entryElems mIdxE) "module_index"
      let lIdxE ← dictGet lt "_label_index"
      let lDay ← buildPerDim agg (entryElems lIdxE) "_label_index"
      let metIdxE ← dictGet met "method_index"
      let metDay ← buildPerDim agg (entryElems metIdxE) "method_index"
      let rIdxE ← dictGet rt "repo_index"
      let rDay ← buildPerDim agg (entryElems rIdxE) "repo_index"
      let gIdxE ← dictGet gt "_group_index"
      let gDay ← buildPerDim agg (entryElems gIdxE) "_group_index"
      let logAgg ← dictGet agg "log_counts_per_hour"
      some ⟨dkeys, mDay, lDay, metDay, rDay, gDay, logAgg⟩
    else none

/-- The shared body of `sum_by_day` (`w = 10`) and `sum_by_month`
(`w = 7`): load the artifact fields, delete the index keys from copies of
the five dimension tables, then aggregate.  Every raised exception — a
missing top-level key, a `del` on an absent index key, mismatched column
lengths in the `pd.DataFrame` constructor, or a `KeyError` on
`daily_aggregated[index_t]` — is caught by the enclosing `except:` clause,
which logs and returns `False`; the model returns `none`. -/
def sum_by_trunc (w : Nat) (g : LoadedGraph) : Option ReAggResult := do
  let mt ← g.module_counts_per_hour
  let module ← delKey mt "module_index"
  let lt ← g.label_counts_per_hour
  let label ← delKey lt "_label_index"
  let met ← g.method_counts_per_hour
  let method ← delKey met "method_index"
  let rt ← g.repo_counts_per_hour
  let repo ← delKey rt "repo_index"
  let log ← g.log_counts_per_hour
  let gt ← g.group_counts_per_hour
  let group ← delKey gt "_group_index"
  let ds ← g.dates
  reaggregate w mt lt met rt gt
    (mergedColumns module label method repo log group) ds

/-- `sum_by_day(collection_name)` on an already-loaded artifact:
labels truncated to `d[:10]` (`YYYY-MM-DD`). -/
def sum_by_day (g : LoadedGraph) : Option ReAggResult := sum_by_trunc 10 g

/-- `sum_by_month(collection_name)` on an already-loaded artifact:
labels truncated to `d[:7]` (`YYYY-MM`). -/
def sum_by_month (g : LoadedGraph) : Option ReAggResult := sum_by_trunc 7 g

/-! ## Unfolding the builder on a successful run -/
/-- The frame the counting helpers actually see: query result, sorted by
timestamp, filtered once more to the range (a no-op repeat of the query
condition). -/
def df_filtered_of (collection : List Record) (s e : Nat) : List Record :=
  ((collection.filter (fun r => s ≤ r.t ∧ r.t ≤ e)).insertionSort
    (fun a b => a.t ≤ b.t)).filter (fun r => s ≤ r.t ∧ r.t ≤ e)

/-- The five tracked dimensions: record accessor paired with the
artifact's table for that dimension. -/
def dims5 : List ((Record → Option JVal) ×
    (HourlyArtifact → List (Option JVal × PEntry))) :=
  [(Record.module, HourlyArtifact.module_counts_per_hour),
   (Record.label, HourlyArtifact.label_counts_per_hour),
   (Record.method, HourlyArtifact.method_counts_per_hour),
   (Record.repo, HourlyArtifact.repo_counts_per_hour),
   (Record.group, HourlyArtifact.group_counts_per_hour)]

/-- The payload of a count entry (`[]` for an index entry). -/
def countsOf : PEntry → List Nat
  | PEntry.counts l => l
  | PEntry.idx _ => []

/-- `en` is a count list of length `n`. -/
def entryCountsLen : PEntry → Nat → Bool
  | PEntry.counts l, n => l.length = n
  | PEntry.idx _, _ => false

/-- A loaded dimension table of the expected shape: its index key is
bound, and every other binding is a count list of the axis length. -/
def tableShaped (t : List (String × PEntry)) (idxKey : String) (n : Nat) :
    Prop :=
  idxKey ∈ t.map Prod.fst ∧
  ∀ p ∈ t, p.1 = idxKey ∨ entryCountsLen p.2 n = true

/-- The dimension triples the re-aggregators traverse: the hourly table,
its index key, and the selector of the corresponding result table. -/
def reaggTrips (mt lt met rt gt : List (String × PEntry)) :
    List ((List (String × PEntry)) × String ×
      (ReAggResult → List (String × PEntry))) :=
  [(mt, "module_index", ReAggResult.module_counts),
   (lt, "_label_index", ReAggResult.label_counts),
   (met, "method_index", ReAggResult.method_counts),
   (rt, "repo_index", ReAggResult.repo_counts),
   (gt, "_group_index", ReAggResult.group_counts)]

/-- Hourly module table of the C3 counterexample artifact: value "X" with
hourly counts `[1, 0]`. -/
def c3mt : List (String × PEntry) :=
  [("module_index", PEntry.idx [some (JVal.str "X")]),
   ("X", PEntry.counts [1, 0])]

/-- C3 counterexample artifact: the label dimension also observes the
value "X" (hourly counts `[5, 5]`), so the merged DataFrame holds a single
"X" column. -/
def c3g : LoadedGraph :=
  { dates := some ["2024-01-01-00", "2024-01-01-01"],
    module_counts_per_hour := some c3mt,
    label_counts_per_hour := some
      [("_label_index", PEntry.idx [some (JVal.str "X")]),
       ("X", PEntry.counts [5, 5])],
    method_counts_per_hour := some [("method_index", PEntry.idx [])],
    repo_counts_per_hour := some [("repo_index", PEntry.idx [])],
    log_counts_per_hour := some [0, 0],
    group_counts_per_hour := some [("_group_index", PEntry.idx [])] }

/-- Hourly module table of the collision-free C3 witness artifact. -/
def c3wmt : List (String × PEntry) :=
  [("module_index", PEntry.idx [some (JVal.str "X")]),
   ("X", PEntry.counts [1, 2])]

/-- A collision-free artifact: the value "X" occurs only in the module
table. -/
def c3w : LoadedGraph :=
  { dates := some ["2024-01-01-00", "2024-01-01-01"],
    module_counts_per_hour := some c3wmt,
    label_counts_per_hour := some [("_label_index", PEntry.idx [])],
    method_counts_per_hour := some [("method_index", PEntry.idx [])],
    repo_counts_per_hour := some [("repo_index", PEntry.idx [])],
    log_counts_per_hour := some [3, 4],
    group_counts_per_hour := some [("_group_index", PEntry.idx [])] }

/-- C8 counterexample artifact: the hourly labels appear out of order, so
first-appearance order of the coarse labels differs from sorted order. -/
def c8g : LoadedGraph :=
  { dates := some ["2024-01-02-00", "2024-01-01-00"],
    module_counts_per_hour := some [("module_index", PEntry.idx [])],
    label_counts_per_hour := some [("_label_index", PEntry.idx [])],
    method_counts_per_hour := some [("method_index", PEntry.idx [])],
    repo_counts_per_hour := some [("repo_index", PEntry.idx [])],
    log_counts_per_hour := some [1, 2],
    group_counts_per_hour := some [("_group_index", PEntry.idx [])] }

/-- Hourly module table of the sorted C8 witness artifact. -/
def c8wmt : List (String × PEntry) :=
  [("module_index", PEntry.idx [some (JVal.str "X")]),
   ("X", PEntry.counts [1, 2, 3])]

/-- A well-shaped artifact whose hourly labels are already ascending. -/
def c8w : LoadedGraph :=
  { dates := some ["2024-01-01-00", "2024-01-01-01", "2024-01-02-00"],
    module_counts_per_hour := some c8wmt,
    label_counts_per_hour := some [("_label_index", PEntry.idx [])],
    method_counts_per_hour := some [("method_index", PEntry.idx [])],
    repo_counts_per_hour := some [("repo_index", PEntry.idx [])],
    log_counts_per_hour := some [4, 5, 6],
    group_counts_per_hour := some [("_group_index", PEntry.idx [])] }

/-- The merged column frame of the C8 witness artifact. -/
def c8wmerged : List (String × PEntry) :=
  mergedColumns (delFirst c8wmt "module_index")
    (delFirst [("_label_index", PEntry.idx [])] "_label_index")
    (delFirst [("method_index", PEntry.idx [])] "method_index")
    (delFirst [("repo_index", PEntry.idx [])] "repo_index") [4, 5, 6]
    (delFirst [("_group_index", PEntry.idx [])] "_group_index")

/-- A loaded artifact missing an expected structural key: a top-level key
absent, or a dimension table without its index key. -/
def missingKey (g : LoadedGraph) : Prop :=
  g.dates = none ∨ g.log_counts_per_hour = none ∨
  g.module_counts_per_hour = none ∨ g.label_counts_per_hour = none ∨
  g.method_counts_per_hour = none ∨ g.repo_counts_per_hour = none ∨
  g.group_counts_per_hour = none ∨
  (∃ t, g.module_counts_per_hour = some t ∧
    "module_index" ∉ t.map Prod.fst) ∨
  (∃ t, g.label_counts_per_hour = some t ∧
    "_label_index" ∉ t.map Prod.fst) ∨
  (∃ t, g.method_counts_per_hour = some t ∧
    "method_index" ∉ t.map Prod.fst) ∨
  (∃ t, g.repo_counts_per_hour = some t ∧
    "repo_index" ∉ t.map Prod.fst) ∨
  (∃ t, g.group_counts_per_hour = some t ∧
    "_group_index" ∉ t.map Prod.fst)

/-- Hourly module table of the C9 counterexample artifact: the index
lists the value "X" but the table itself has no key "X". -/
def c9gmt : List (String × PEntry) :=
  [("module_index", PEntry.idx [some (JVal.str "X")])]

/-- C9 counterexample artifact: the module table is missing its expected
value key "X", but the label table happens to bind "X". -/
def c9g : LoadedGraph :=
  { dates := some ["2024-01-01-00"],
    module_counts_per_hour := some c9gmt,
    label_counts_per_hour := some
      [("_label_index", PEntry.idx []), ("X", PEntry.counts [7])],
    method_counts_per_hour := some [("method_index", PEntry.idx [])],
    repo_counts_per_hour := some [("repo_index", PEntry.idx [])],
    log_counts_per_hour := some [1],
    group_counts_per_hour := some [("_group_index", PEntry.idx [])] }

/-- An artifact whose `dates` key is absent. -/
def c9w : LoadedGraph :=
  { dates := none,
    module_counts_per_hour := some [("module_index", PEntry.idx [])],
    label_counts_per_hour := some [("_label_index", PEntry.idx [])],
    method_counts_per_hour := some [("method_index", PEntry.idx [])],
    repo_counts_per_hour := some [("repo_index", PEntry.idx [])],
    log_counts_per_hour := some [1],
    group_counts_per_hour := some [("_group_index", PEntry.idx [])] }

/-! ## Theorems -/

theorem lexLt_irrefl : ∀ l : List Char, lexLt l l = false := by
  intro l
  induction l with
  | nil => rfl
  | cons a as ih => simp [lexLt, ih]

theorem lexLt_trans : ∀ {a b c : List Char},
    lexLt a b = true → lexLt b c = true → lexLt a c = true := by
  intro a
  induction a with
  | nil =>
    intro b c hab hbc
    cases c with
    | nil =>
      cases b with
      | nil => exact hab
      | cons y ys => simp [lexLt] at hbc
    | cons z zs => rfl
  | cons x xs ih =>
    intro b c hab hbc
    cases b with
    | nil => simp [lexLt] at hab
    | cons y ys =>
      cases c with
      | nil => simp [lexLt] at hbc
      | cons z zs =>
        simp only [lexLt] at hab hbc ⊢
        by_cases hxy : x.toNat < y.toNat
        · by_cases hyz : y.toNat < z.toNat
          · rw [if_pos (show x.toNat < z.toNat by omega)]
          · rw [if_neg hyz] at hbc
            by_cases hzy : z.toNat < y.toNat
            · rw [if_pos hzy] at hbc; exact absurd hbc (by simp)
            · rw [if_pos (show x.toNat < z.toNat by omega)]
        · rw [if_neg hxy] at hab
          by_cases hyx : y.toNat < x.toNat
          · rw [if_pos hyx] at hab; exact absurd hab (by simp)
          · rw [if_neg hyx] at hab
            by_cases hyz : y.toNat < z.toNat
            · rw [if_pos (show x.toNat < z.toNat by omega)]
            · rw [if_neg hyz] at hbc
              by_cases hzy : z.toNat < y.toNat
              · rw [if_pos hzy] at hbc; exact absurd hbc (by simp)
              · rw [if_neg hzy] at hbc
                rw [if_neg (show ¬ x.toNat < z.toNat by omega),
                  if_neg (show ¬ z.toNat < x.toNat by omega)]
                exact ih hab hbc

theorem lexLt_total : ∀ a b : List Char, a ≠ b →
    lexLt a b = true ∨ lexLt b a = true := by
  intro a
  induction a with
  | nil =>
    intro b hb
    cases b with
    | nil => exact absurd rfl hb
    | cons y ys => left; rfl
  | cons x xs ih =>
    intro b hb
    cases b with
    | nil => right; rfl
    | cons y ys =>
      by_cases hxy : x.toNat < y.toNat
      · left; simp [lexLt, hxy]
      · by_cases hyx : y.toNat < x.toNat
        · right; simp [lexLt, hyx]
        · have hx : x = y :=
            Char.ext (UInt32.ext (show x.toNat = y.toNat by omega))
          subst hx
          have hxs : xs ≠ ys := by
            intro h; exact hb (by rw [h])
          rcases ih ys hxs with h | h
          · left; simp [lexLt, hxy, h]
          · right; simp [lexLt, hxy, h]

theorem strLt_irrefl (s : String) : strLt s s = false := lexLt_irrefl s.data

theorem strLt_trans {a b c : String} (h1 : strLt a b = true)
    (h2 : strLt b c = true) : strLt a c = true := lexLt_trans h1 h2

theorem strLt_total (a b : String) (h : a ≠ b) :
    strLt a b = true ∨ strLt b a = true := by
  apply lexLt_total
  intro hd
  exact h (by cases a; cases b; simp_all)

theorem sLt_irrefl (s : String) : ¬ sLt s s := by simp [sLt, strLt_irrefl]

theorem sLt_asymm {s t : String} (h : sLt s t) : ¬ sLt t s := by
  intro h2
  have := strLt_trans h h2
  simp [strLt_irrefl] at this

theorem sLt_ne {s t : String} (h : sLt s t) : s ≠ t := by
  intro he; subst he; exact sLt_irrefl s h

section
variable {K V : Type} [DecidableEq K]

@[simp] theorem dictGet_nil (k : K) : dictGet ([] : List (K × V)) k = none := rfl

@[simp] theorem dictGet_cons (k' : K) (v' : V) (d : List (K × V)) (k : K) :
    dictGet ((k', v') :: d) k = if k' = k then some v' else dictGet d k := by
  by_cases h : k' = k <;> simp [dictGet, List.find?, h]

theorem dictInsert_cons_self (pk : K) (pv v : V) (rest : List (K × V)) :
    dictInsert ((pk, pv) :: rest) pk v = (pk, v) :: rest := by
  simp [dictInsert]

theorem dictInsert_cons_ne (pk : K) (pv v : V) (rest : List (K × V)) (k : K)
    (h : pk ≠ k) :
    dictInsert ((pk, pv) :: rest) k v = (pk, pv) :: dictInsert rest k v := by
  simp [dictInsert, h]

theorem dictGet_dictInsert (d : List (K × V)) (k k' : K) (v : V) :
    dictGet (dictInsert d k v) k' = if k = k' then some v else dictGet d k' := by
  induction d with
  | nil => by_cases h : k = k' <;> simp [dictInsert, h]
  | cons p rest ih =>
    obtain ⟨pk, pv⟩ := p
    by_cases h1 : pk = k
    · subst h1
      rw [dictInsert_cons_self]
      by_cases h2 : pk = k' <;> simp [h2]
    · rw [dictInsert_cons_ne _ _ _ _ _ h1]
      by_cases h2 : pk = k'
      · subst h2
        rw [dictGet_cons, if_pos rfl, dictGet_cons, if_pos rfl,
          if_neg (fun he => h1 he.symm)]
      · rw [dictGet_cons, if_neg h2, ih, dictGet_cons, if_neg h2]

theorem dictGet_eq_none_iff (d : List (K × V)) (k : K) :
    dictGet d k = none ↔ k ∉ d.map Prod.fst := by
  induction d with
  | nil => simp
  | cons p rest ih =>
    obtain ⟨pk, pv⟩ := p
    by_cases h : pk = k
    · subst h; simp
    · rw [dictGet_cons, if_neg h]
      simp only [List.map_cons, List.mem_cons, not_or, ih]
      constructor
      · intro hk; exact ⟨fun he => h he.symm, hk⟩
      · intro hk; exact hk.2

theorem dictGet_isSome_iff (d : List (K × V)) (k : K) :
    (dictGet d k).isSome = true ↔ k ∈ d.map Prod.fst := by
  rw [Option.isSome_iff_ne_none, ne_eq, dictGet_eq_none_iff, not_not]

theorem mem_keys_dictInsert (d : List (K × V)) (k a : K) (v : V) :
    a ∈ (dictInsert d k v).map Prod.fst ↔ a = k ∨ a ∈ d.map Prod.fst := by
  induction d with
  | nil => simp [dictInsert]
  | cons p rest ih =>
    obtain ⟨pk, pv⟩ := p
    by_cases h : pk = k
    · subst h
      rw [dictInsert_cons_self]
      simp only [List.map_cons, List.mem_cons]
      tauto
    · rw [dictInsert_cons_ne _ _ _ _ _ h]
      simp only [List.map_cons, List.mem_cons, ih]
      tauto

theorem nodup_keys_dictInsert (d : List (K × V)) (k : K) (v : V)
    (h : (d.map Prod.fst).Nodup) : ((dictInsert d k v).map Prod.fst).Nodup := by
  induction d with
  | nil => simp [dictInsert]
  | cons p rest ih =>
    obtain ⟨pk, pv⟩ := p
    rw [List.map_cons, List.nodup_cons] at h
    by_cases hk : pk = k
    · subst hk
      rw [dictInsert_cons_self, List.map_cons, List.nodup_cons]
      exact h
    · rw [dictInsert_cons_ne _ _ _ _ _ hk, List.map_cons, List.nodup_cons]
      refine ⟨?_, ih h.2⟩
      rw [mem_keys_dictInsert]
      rintro (rfl | hmem)
      · exact hk rfl
      · exact h.1 hmem

theorem dictGet_insertAll_of_not_mem (d acc : List (K × V)) (k : K)
    (h : k ∉ d.map Prod.fst) :
    dictGet (insertAll acc d) k = dictGet acc k := by
  induction d generalizing acc with
  | nil => rfl
  | cons p rest ih =>
    simp only [List.map_cons, List.mem_cons, not_or] at h
    show dictGet (insertAll (dictInsert acc p.1 p.2) rest) k = dictGet acc k
    rw [ih _ h.2, dictGet_dictInsert, if_neg (fun he => h.1 he.symm)]

theorem dictGet_insertAll_of_get (d acc : List (K × V)) (k : K) (v : V)
    (hnd : (d.map Prod.fst).Nodup) (hget : dictGet d k = some v) :
    dictGet (insertAll acc d) k = some v := by
  induction d generalizing acc with
  | nil => simp [dictGet] at hget
  | cons p rest ih =>
    obtain ⟨pk, pv⟩ := p
    rw [List.map_cons, List.nodup_cons] at hnd
    by_cases h : pk = k
    · subst h
      rw [dictGet_cons, if_pos rfl, Option.some.injEq] at hget
      subst hget
      show dictGet (insertAll (dictInsert acc pk pv) rest) pk = some pv
      rw [dictGet_insertAll_of_not_mem _ _ _ hnd.1, dictGet_dictInsert, if_pos rfl]
    · rw [dictGet_cons, if_neg h] at hget
      exact ih _ hnd.2 hget

theorem mem_keys_insertAll (d acc : List (K × V)) (a : K) :
    a ∈ (insertAll acc d).map Prod.fst ↔
      a ∈ acc.map Prod.fst ∨ a ∈ d.map Prod.fst := by
  induction d generalizing acc with
  | nil => simp [insertAll]
  | cons p rest ih =>
    show a ∈ (insertAll (dictInsert acc p.1 p.2) rest).map Prod.fst ↔ _
    rw [ih, mem_keys_dictInsert]
    simp only [List.map_cons, List.mem_cons]
    tauto

theorem dictGet_mem (d : List (K × V)) (k : K) (v : V)
    (h : dictGet d k = some v) : (k, v) ∈ d := by
  induction d with
  | nil => simp [dictGet] at h
  | cons p rest ih =>
    obtain ⟨pk, pv⟩ := p
    by_cases hk : pk = k
    · subst hk
      rw [dictGet_cons, if_pos rfl, Option.some.injEq] at h
      subst h; exact List.mem_cons_self _ _
    · rw [dictGet_cons, if_neg hk] at h
      exact List.mem_cons_of_mem _ (ih h)

theorem dictGet_delFirst_ne (d : List (K × V)) (k k' : K) (hne : k' ≠ k) :
    dictGet (delFirst d k) k' = dictGet d k' := by
  induction d with
  | nil => rfl
  | cons p rest ih =>
    obtain ⟨pk, pv⟩ := p
    by_cases hk : pk = k
    · subst hk
      show dictGet (if pk = pk then rest else _) k' = _
      rw [if_pos rfl, dictGet_cons, if_neg (fun he => hne he.symm)]
    · show dictGet (if pk = k then _ else (pk, pv) :: delFirst rest k) k' = _
      rw [if_neg hk]
      by_cases hpk : pk = k'
      · rw [dictGet_cons, dictGet_cons, if_pos hpk, if_pos hpk]
      · rw [dictGet_cons, dictGet_cons, if_neg hpk, if_neg hpk, ih]

theorem delKey_eq_some (d : List (K × V)) (k : K) (d' : List (K × V))
    (h : delKey d k = some d') : d' = delFirst d k := by
  simp only [delKey] at h
  split at h
  · cases h; rfl
  · cases h

theorem delKey_isSome_iff (d : List (K × V)) (k : K) :
    (delKey d k).isSome = true ↔ k ∈ d.map Prod.fst := by
  have hfind : (d.find? (fun p => p.1 = k)).isSome = true ↔ k ∈ d.map Prod.fst := by
    rw [List.find?_isSome]
    constructor
    · rintro ⟨p, hp, hpk⟩
      rw [decide_eq_true_eq] at hpk
      exact hpk ▸ List.mem_map_of_mem Prod.fst hp
    · intro hmem
      obtain ⟨p, hp, hk⟩ := List.mem_map.mp hmem
      exact ⟨p, hp, by simp [hk]⟩
  by_cases hf : (d.find? (fun p => p.1 = k)).isSome = true
  · simp only [delKey, if_pos hf, Option.isSome_some, true_iff]
    exact hfind.mp hf
  · simp only [delKey, if_neg hf, Option.isSome_none]
    constructor
    · intro h; simp at h
    · intro hmem; exact absurd (hfind.mpr hmem) hf

theorem dictGet_delKey_ne (d : List (K × V)) (k k' : K) (d' : List (K × V))
    (h : delKey d k = some d') (hne : k' ≠ k) :
    dictGet d' k' = dictGet d k' := by
  rw [delKey_eq_some d k d' h]
  exact dictGet_delFirst_ne d k k' hne

end

section
variable {α : Type} [DecidableEq α]

theorem uniqueFSGo_fuel_irrel : ∀ (f1 : Nat), ∀ (l : List α) (f2 : Nat),
    l.length ≤ f1 → l.length ≤ f2 → uniqueFSGo f1 l = uniqueFSGo f2 l := by
  intro f1
  induction f1 with
  | zero =>
    intro l f2 h1 _
    rw [Nat.le_zero, List.length_eq_zero] at h1
    subst h1
    cases f2 <;> rfl
  | succ f ih =>
    intro l f2 h1 h2
    cases l with
    | nil => cases f2 <;> rfl
    | cons x xs =>
      cases f2 with
      | zero => simp at h2
      | succ g =>
        show x :: uniqueFSGo f (xs.filter (fun y => y ≠ x))
          = x :: uniqueFSGo g (xs.filter (fun y => y ≠ x))
        have h1' : xs.length ≤ f := by
          simp only [List.length_cons] at h1
          omega
        have h2' : xs.length ≤ g := by
          simp only [List.length_cons] at h2
          omega
        rw [ih (xs.filter (fun y => y ≠ x)) g
          (le_trans (List.length_filter_le _ xs) h1')
          (le_trans (List.length_filter_le _ xs) h2')]

theorem uniqueFS_eq_rec : ∀ l : List α, uniqueFS l = uniqueFSRec l := by
  intro l
  induction l using uniqueFSRec.induct with
  | case1 => rw [uniqueFSRec]; rfl
  | case2 x xs ih =>
    rw [uniqueFSRec]
    show x :: uniqueFSGo xs.length (xs.filter (fun y => y ≠ x)) = _
    rw [← ih, uniqueFS]
    have hlen := List.length_filter_le (fun y => decide (y ≠ x)) xs
    rw [uniqueFSGo_fuel_irrel xs.length (xs.filter (fun y => y ≠ x))
      (xs.filter (fun y => y ≠ x)).length hlen (Nat.le_refl _)]

@[simp] theorem uniqueFS_nil : uniqueFS ([] : List α) = [] := rfl

theorem uniqueFS_cons (x : α) (xs : List α) :
    uniqueFS (x :: xs) = x :: uniqueFS (xs.filter (fun y => y ≠ x)) := by
  rw [uniqueFS_eq_rec, uniqueFS_eq_rec, uniqueFSRec]

theorem mem_uniqueFS (l : List α) (a : α) : a ∈ uniqueFS l ↔ a ∈ l := by
  rw [uniqueFS_eq_rec]
  induction l using uniqueFSRec.induct with
  | case1 => simp [uniqueFSRec]
  | case2 x xs ih =>
    rw [uniqueFSRec]
    by_cases hax : a = x
    · subst hax; simp
    · simp only [List.mem_cons, hax, false_or, ih, List.mem_filter,
        decide_eq_true_eq]
      constructor
      · intro h; exact h.1
      · intro h; exact ⟨h, by simpa using hax⟩

theorem nodup_uniqueFS (l : List α) : (uniqueFS l).Nodup := by
  rw [uniqueFS_eq_rec]
  induction l using uniqueFSRec.induct with
  | case1 => simp [uniqueFSRec]
  | case2 x xs ih =>
    rw [uniqueFSRec, List.nodup_cons]
    refine ⟨?_, ih⟩
    rw [← uniqueFS_eq_rec, mem_uniqueFS]
    intro hmem
    have := (List.mem_filter.mp hmem).2
    simp at this

end

theorem mem_insertSD (x a : String) (l : List String) :
    a ∈ insertSD x l ↔ a = x ∨ a ∈ l := by
  induction l with
  | nil => simp [insertSD]
  | cons y ys ih =>
    simp only [insertSD]
    by_cases h1 : strLt x y = true
    · simp [h1]
    · rw [if_neg h1]
      by_cases h2 : x = y
      · subst h2
        rw [if_pos rfl]
        simp only [List.mem_cons]
        tauto
      · rw [if_neg h2]
        simp only [List.mem_cons, ih]
        tauto

theorem pairwise_insertSD (x : String) (l : List String)
    (h : l.Pairwise sLt) : (insertSD x l).Pairwise sLt := by
  induction l with
  | nil => simp [insertSD]
  | cons y ys ih =>
    rw [List.pairwise_cons] at h
    by_cases h1 : strLt x y = true
    · simp only [insertSD, if_pos h1]
      rw [List.pairwise_cons]
      constructor
      · intro b hb
        rcases List.mem_cons.mp hb with rfl | hb
        · exact h1
        · exact strLt_trans h1 (h.1 b hb)
      · rw [List.pairwise_cons]; exact h
    · rw [insertSD, if_neg h1]
      by_cases h2 : x = y
      · rw [if_pos h2, List.pairwise_cons]; exact h
      · rw [if_neg h2, List.pairwise_cons]
        constructor
        · intro b hb
          rcases (mem_insertSD x b ys).mp hb with rfl | hb
          · rcases strLt_total b y h2 with hlt | hlt
            · exact absurd hlt h1
            · exact hlt
          · exact h.1 b hb
        · exact ih h.2

theorem pairwise_sortDedup (l : List String) : (sortDedup l).Pairwise sLt := by
  suffices h : ∀ acc : List String, acc.Pairwise sLt →
      (l.foldl (fun acc x => insertSD x acc) acc).Pairwise sLt by
    exact h [] (by simp)
  induction l with
  | nil => intro acc hacc; exact hacc
  | cons x xs ih =>
    intro acc hacc
    exact ih _ (pairwise_insertSD x acc hacc)

theorem mem_sortDedup (l : List String) (a : String) :
    a ∈ sortDedup l ↔ a ∈ l := by
  suffices h : ∀ acc : List String,
      (a ∈ l.foldl (fun acc x => insertSD x acc) acc ↔ a ∈ acc ∨ a ∈ l) by
    simpa using h []
  induction l with
  | nil => intro acc; simp
  | cons x xs ih =>
    intro acc
    show a ∈ xs.foldl _ (insertSD x acc) ↔ _
    rw [ih (insertSD x acc), mem_insertSD]
    simp only [List.mem_cons]
    tauto

theorem nodup_sortDedup (l : List String) : (sortDedup l).Nodup := by
  have h := pairwise_sortDedup l
  exact h.imp (fun hlt => sLt_ne hlt)

/-- Two strictly ascending lists with the same members are equal. -/
theorem pairwise_sLt_ext : ∀ l₁ l₂ : List String, l₁.Pairwise sLt →
    l₂.Pairwise sLt → (∀ a, a ∈ l₁ ↔ a ∈ l₂) → l₁ = l₂ := by
  intro l₁
  induction l₁ with
  | nil =>
    intro l₂ _ _ hmem
    cases l₂ with
    | nil => rfl
    | cons y ys => exact absurd ((hmem y).mpr (by simp)) (by simp)
  | cons x xs ih =>
    intro l₂ h1 h2 hmem
    cases l₂ with
    | nil => exact absurd ((hmem x).mp (by simp)) (by simp)
    | cons y ys =>
      rw [List.pairwise_cons] at h1 h2
      have hxy : x = y := by
        rcases List.mem_cons.mp ((hmem x).mp (List.mem_cons_self x xs)) with
          h | h
        · exact h
        · rcases List.mem_cons.mp ((hmem y).mpr (List.mem_cons_self y ys)) with
            h' | h'

          · exact h'.symm
          · exact absurd (h2.1 x h) (sLt_asymm (h1.1 y h'))
      subst hxy
      have htails : ∀ a, a ∈ xs ↔ a ∈ ys := by
        intro a
        constructor
        · intro ha
          rcases List.mem_cons.mp ((hmem a).mp (List.mem_cons_of_mem x ha)) with
            h | h
          · exact absurd (h1.1 a ha) (h ▸ sLt_irrefl x)
          · exact h
        · intro ha
          rcases List.mem_cons.mp ((hmem a).mpr (List.mem_cons_of_mem x ha)) with
            h | h
          · exact absurd (h2.1 a ha) (h ▸ sLt_irrefl x)
          · exact h
      rw [ih ys h1.2 h2.2 htails]

/-- On a weakly ascending list, first-seen deduplication yields a strictly
ascending list. -/
theorem pairwise_sLt_uniqueFS : ∀ l : List String,
    l.Pairwise (fun a b => strLt b a = false) → (uniqueFS l).Pairwise sLt := by
  intro l
  induction l using uniqueFSRec.induct with
  | case1 => intro _; simp
  | case2 x xs ih =>
    intro h
    rw [List.pairwise_cons] at h
    rw [uniqueFS_cons, List.pairwise_cons]
    constructor
    · intro b hb
      have hbf := (mem_uniqueFS _ b).mp hb
      have hbx : b ∈ xs := (List.mem_filter.mp hbf).1
      have hbne : b ≠ x := by
        have := (List.mem_filter.mp hbf).2
        simpa using this
      rcases strLt_total x b (fun he => hbne he.symm) with hlt | hlt
      · exact hlt
      · exact absurd hlt (by simp [h.1 b hbx])
    · exact ih (h.2.filter _)

/-- On a weakly ascending list (no later element strictly below an earlier
one), sorted deduplication agrees with first-seen deduplication. -/
theorem sortDedup_eq_uniqueFS (l : List String)
    (h : l.Pairwise (fun a b => strLt b a = false)) :
    sortDedup l = uniqueFS l := by
  apply pairwise_sLt_ext _ _ (pairwise_sortDedup l) (pairwise_sLt_uniqueFS l h)
  intro a
  rw [mem_sortDedup, mem_uniqueFS]

/-! ## Grouped sums lose nothing -/
theorem sum_map_filter_split (l : List (String × Nat)) (q : String × Nat → Bool) :
    ((l.filter q).map Prod.snd).sum + ((l.filter (fun x => !(q x))).map Prod.snd).sum
      = (l.map Prod.snd).sum := by
  induction l with
  | nil => rfl
  | cons p rest ih =>
    by_cases h : q p = true
    · simp [List.filter_cons, h]
      omega
    · rw [Bool.not_eq_true] at h
      simp [List.filter_cons, h]
      omega

/-- Summing the per-group sums over a duplicate-free key list covering every
row's key recovers the total: `groupby(...).sum()` loses nothing. -/
theorem sum_groupSums (keys : List String) (pairs : List (String × Nat))
    (hnd : keys.Nodup) (hcov : ∀ p ∈ pairs, p.1 ∈ keys) :
    (keys.map (fun k => ((pairs.filter (fun p => p.1 = k)).map Prod.snd).sum)).sum
      = (pairs.map Prod.snd).sum := by
  induction keys generalizing pairs with
  | nil =>
    cases pairs with
    | nil => rfl
    | cons p ps => exact absurd (hcov p (by simp)) (by simp)
  | cons k ks ih =>
    rw [List.nodup_cons] at hnd
    rw [List.map_cons, List.sum_cons]
    have hrest : (ks.map (fun k' => ((pairs.filter (fun p => p.1 = k')).map
        Prod.snd).sum)).sum
        = (ks.map (fun k' => (((pairs.filter (fun p => !(decide (p.1 = k)))).filter
            (fun p => p.1 = k')).map Prod.snd).sum)).sum := by
      apply congrArg
      apply List.map_congr_left
      intro k' hk'
      have hne : k' ≠ k := fun he => hnd.1 (he ▸ hk')
      rw [List.filter_filter]
      apply congrArg
      apply congrArg
      apply List.filter_congr
      intro p _
      by_cases hp : p.1 = k'
      · simp [hp, hne]
      · simp [hp]
    have hcov' : ∀ p ∈ pairs.filter (fun p => !(decide (p.1 = k))), p.1 ∈ ks := by
      intro p hp
      have h1 := List.mem_filter.mp hp
      rcases List.mem_cons.mp (hcov p h1.1) with he | hm
      · exact absurd he (by simpa using h1.2)
      · exact hm
    rw [hrest, ih _ hnd.2 hcov']
    exact sum_map_filter_split pairs (fun p => decide (p.1 = k))

/-! ## Supporting lemmas about the builder -/
theorem date_range_eq (s e : Nat) (h : s ≤ e) :
    date_range s e = List.range' s ((e - s) / 60 + 1) 60 := by
  rw [date_range, if_neg (by omega)]

theorem date_range_length (s e : Nat) (h : s ≤ e) :
    (date_range s e).length = (e - s) / 60 + 1 := by
  rw [date_range_eq s e h, List.length_range']

theorem map_div_range' : ∀ (n s : Nat),
    (List.range' s n 60).map (fun t => t / 60) = List.range' (s / 60) n := by
  intro n
  induction n with
  | zero => intro s; rfl
  | succ n ih =>
    intro s
    rw [List.range'_succ, List.range'_succ, List.map_cons, ih (s + 60)]
    have h60 : (s + 60) / 60 = s / 60 + 1 := by omega
    rw [h60]

/-- The hour labels of the `dates` axis in closed form: consecutive hour
numbers starting at `floor_to_hour(start)`. -/
theorem dates_axis_eq (s e : Nat) (h : s ≤ e) :
    (date_range s e).map (fun t => t / 60)
      = List.range' (s / 60) ((e - s) / 60 + 1) := by
  rw [date_range_eq s e h, map_div_range']

section
variable {K V : Type} [DecidableEq K]

theorem dictGet_map_pair_of_mem (l : List K) (fv : K → V) (k : K) (h : k ∈ l) :
    dictGet (l.map (fun x => (x, fv x))) k = some (fv k) := by
  induction l with
  | nil => simp at h
  | cons x xs ih =>
    rw [List.map_cons, dictGet_cons]
    by_cases hx : x = k
    · subst hx; rw [if_pos rfl]
    · rw [if_neg hx]
      rcases List.mem_cons.mp h with h1 | h1
      · exact absurd h1.symm hx
      · exact ih h1

/-- A fold of keyed inserts is `insertAll` of the key-value pairs. -/
theorem foldl_insert_eq_insertAll (l : List K) (fv : K → V)
    (init : List (K × V)) :
    l.foldl (fun acc x => dictInsert acc x (fv x)) init
      = insertAll init (l.map (fun x => (x, fv x))) := by
  rw [insertAll, List.foldl_map]

theorem dictGet_insertAll_cases (d acc : List (K × V)) (k : K) (v : V)
    (hnd : (d.map Prod.fst).Nodup)
    (h : dictGet (insertAll acc d) k = some v) :
    dictGet d k = some v ∨ (k ∉ d.map Prod.fst ∧ dictGet acc k = some v) := by
  by_cases hmem : k ∈ d.map Prod.fst
  · left
    rcases Option.isSome_iff_exists.mp ((dictGet_isSome_iff d k).mpr hmem) with
      ⟨w, hw⟩
    rw [dictGet_insertAll_of_get d acc k w hnd hw] at h
    rw [hw, h]
  · right
    rw [dictGet_insertAll_of_not_mem d acc k hmem] at h
    exact ⟨hmem, h⟩

end

/-- `find?` over the grouped-counts table reduces to `find?` over the
group keys. -/
theorem find_group_eq (groups : List (Nat × JVal)) (cfun : Nat × JVal → Nat)
    (hour : Nat) (jv : JVal) :
    ((groups.map (fun g => (g, cfun g))).find?
        (fun g => g.1.1 = hour ∧ g.1.2 = jv))
      = (groups.find? (fun g => g.1 = hour ∧ g.2 = jv)).map
          (fun g => (g, cfun g)) := by
  rw [List.find?_map]
  rfl

@[simp] theorem tdfEntry_none (counts : List ((Nat × JVal) × Nat))
    (hour : Nat) : tdfEntry counts none hour = 0 := rfl

/-- The per-hour entry built by `to_dict_format` for an observed value
`some jv` equals the direct record count for that `(hour, value)` pair. -/
theorem tdfEntry_some_eq (df_filtered : List Record) (f : Record → Option JVal)
    (jv : JVal) (hour : Nat) :
    tdfEntry (count_records_per_hour df_filtered f) (some jv) hour
      = df_filtered.countP (fun r => r.t / 60 = hour ∧ f r = some jv) := by
  show (match (count_records_per_hour df_filtered f).find?
      (fun g => g.1.1 = hour ∧ g.1.2 = jv) with
    | some g => g.2
    | none => 0) = _
  rw [count_records_per_hour, find_group_eq]
  rcases hfind : (uniqueFS (df_filtered.filterMap
      (fun r => (f r).map (fun v => (r.t / 60, v))))).find?
        (fun g => g.1 = hour ∧ g.2 = jv) with hnone | ⟨vh, vv⟩
  · rw [hfind]
    simp only [Option.map_none']
    symm
    rw [List.countP_eq_zero]
    intro r hr hp
    rw [decide_eq_true_eq] at hp
    have hpair : (hour, jv) ∈ df_filtered.filterMap
        (fun r => (f r).map (fun v => (r.t / 60, v))) := by
      apply List.mem_filterMap.mpr
      refine ⟨r, hr, ?_⟩
      rw [hp.2, Option.map_some', hp.1]
    have hmem := (mem_uniqueFS _ _).mpr hpair
    have := List.find?_eq_none.mp hfind _ hmem
    simp at this
  · have hp := List.find?_some hfind
    rw [decide_eq_true_eq] at hp
    obtain ⟨h1, h2⟩ := hp
    rw [hfind]
    simp only [Option.map_some']
    show df_filtered.countP
      (fun r => r.t / 60 = (vh, vv).1 ∧ f r = some (vh, vv).2) = _
    simp only at h1 h2
    subst h1
    subst h2
    rfl

theorem map_pair_keys {K V : Type} (l : List K) (fv : K → V) :
    (l.map (fun x => (x, fv x))).map Prod.fst = l := by
  rw [List.map_map]
  exact List.map_id l

/-- `to_dict_format` as a dict: the initial index binding updated with one
count-list binding per observed value. -/
theorem to_dict_format_eq (counts : List ((Nat × JVal) × Nat))
    (df_filtered : List Record) (f : Record → Option JVal) (field : String)
    (all_hours_str : List Nat) :
    to_dict_format counts df_filtered f field all_hours_str
      = insertAll
          [(some (JVal.str (field ++ "_index")),
            PEntry.idx (uniqueFS (df_filtered.map f)))]
          ((uniqueFS (df_filtered.map f)).map (fun v =>
            (v, PEntry.counts (all_hours_str.map (tdfEntry counts v))))) := by
  rw [to_dict_format, foldl_insert_eq_insertAll]

/-- Keys of the value-binding list are exactly the observed values. -/
theorem tdf_pairs_keys_nodup (counts : List ((Nat × JVal) × Nat))
    (df_filtered : List Record) (f : Record → Option JVal)
    (all_hours_str : List Nat) :
    (((uniqueFS (df_filtered.map f)).map (fun v =>
      (v, PEntry.counts (all_hours_str.map (tdfEntry counts v))))).map
        Prod.fst).Nodup := by
  rw [map_pair_keys]
  exact nodup_uniqueFS _

/-- The count sequence `to_dict_format` stores for an observed value. -/
theorem to_dict_format_get_obs (counts : List ((Nat × JVal) × Nat))
    (df_filtered : List Record) (f : Record → Option JVal) (field : String)
    (all_hours_str : List Nat) (v : Option JVal)
    (hobs : v ∈ df_filtered.map f) :
    dictGet (to_dict_format counts df_filtered f field all_hours_str) v
      = some (PEntry.counts (all_hours_str.map (tdfEntry counts v))) := by
  rw [to_dict_format_eq]
  exact dictGet_insertAll_of_get _ _ _ _
    (tdf_pairs_keys_nodup counts df_filtered f all_hours_str)
    (dictGet_map_pair_of_mem _ _ _ ((mem_uniqueFS _ _).mpr hobs))

/-- The count sequence stored for an observed value `some jv`: the direct
per-hour record counts, aligned to the axis. -/
theorem to_dict_format_get_value (df_filtered : List Record)
    (f : Record → Option JVal) (field : String) (all_hours_str : List Nat)
    (jv : JVal) (hobs : some jv ∈ df_filtered.map f) :
    dictGet (to_dict_format (count_records_per_hour df_filtered f)
        df_filtered f field all_hours_str) (some jv)
      = some (PEntry.counts (all_hours_str.map (fun hour =>
          df_filtered.countP (fun r => r.t / 60 = hour ∧ f r = some jv)))) := by
  rw [to_dict_format_get_obs _ _ _ _ _ _ hobs]
  congr 1
  congr 1
  apply List.map_congr_left
  intro hour _
  exact tdfEntry_some_eq df_filtered f jv hour

/-- The count sequence stored for an observed missing value (`None`): all
zeros, because `groupby` dropped those rows and `== None` never holds. -/
theorem to_dict_format_get_none (counts : List ((Nat × JVal) × Nat))
    (df_filtered : List Record) (f : Record → Option JVal) (field : String)
    (all_hours_str : List Nat) (hobs : none ∈ df_filtered.map f) :
    dictGet (to_dict_format counts df_filtered f field all_hours_str) none
      = some (PEntry.counts (all_hours_str.map (fun _ => 0))) := by
  rw [to_dict_format_get_obs _ _ _ _ _ _ hobs]
  have hfun : all_hours_str.map (tdfEntry counts none)
      = all_hours_str.map (fun _ => 0) :=
    List.map_congr_left (fun hour _ => rfl)
  rw [hfun]

/-- Every count-list binding of a `to_dict_format` table has the length of
the hour axis. -/
theorem to_dict_format_counts_length (counts : List ((Nat × JVal) × Nat))
    (df_filtered : List Record) (f : Record → Option JVal) (field : String)
    (all_hours_str : List Nat) (k : Option JVal) (l : List Nat)
    (h : dictGet (to_dict_format counts df_filtered f field all_hours_str) k
      = some (PEntry.counts l)) :
    l.length = all_hours_str.length := by
  rw [to_dict_format_eq] at h
  rcases dictGet_insertAll_cases _ _ _ _
      (tdf_pairs_keys_nodup counts df_filtered f all_hours_str) h with
    hv | ⟨_, hv⟩
  · have hpair := dictGet_mem _ _ _ hv
    rcases List.mem_map.mp hpair with ⟨v, _, hveq⟩
    have hsnd : PEntry.counts (all_hours_str.map (tdfEntry counts v))
        = PEntry.counts l := congrArg Prod.snd hveq
    have hl := (PEntry.counts.injEq _ _).mp hsnd
    rw [← hl, List.length_map]
  · rw [dictGet_cons] at hv
    split at hv
    · exact absurd (Option.some.injEq _ _ ▸ hv) (by simp)
    · simp at hv

/-- The index binding survives (and holds the observed values in
first-seen order) whenever no observed value collides with the literal
index-key string. -/
theorem to_dict_format_get_index (counts : List ((Nat × JVal) × Nat))
    (df_filtered : List Record) (f : Record → Option JVal) (field : String)
    (all_hours_str : List Nat)
    (hnc : some (JVal.str (field ++ "_index")) ∉ df_filtered.map f) :
    dictGet (to_dict_format counts df_filtered f field all_hours_str)
        (some (JVal.str (field ++ "_index")))
      = some (PEntry.idx (uniqueFS (df_filtered.map f))) := by
  rw [to_dict_format_eq]
  rw [dictGet_insertAll_of_not_mem]
  · rw [dictGet_cons, if_pos rfl]
  · rw [map_pair_keys, mem_uniqueFS]
    exact hnc

theorem process_ok (collection : List Record) (s e : Nat)
    (hne : collection.filter (fun r => s ≤ r.t ∧ r.t ≤ e) ≠ []) :
    process_data_background collection s e = Except.ok
      { dates := (date_range s e).map (fun t => t / 60)
        module_counts_per_hour :=
          to_dict_format
            (count_records_per_hour (df_filtered_of collection s e)
              Record.module)
            (df_filtered_of collection s e) Record.module "module"
            ((date_range s e).map (fun t => t / 60))
        label_counts_per_hour :=
          to_dict_format
            (count_records_per_hour (df_filtered_of collection s e)
              Record.label)
            (df_filtered_of collection s e) Record.label "_label"
            ((date_range s e).map (fun t => t / 60))
        method_counts_per_hour :=
          to_dict_format
            (count_records_per_hour (df_filtered_of collection s e)
              Record.method)
            (df_filtered_of collection s e) Record.method "method"
            ((date_range s e).map (fun t => t / 60))
        repo_counts_per_hour :=
          to_dict_format
            (count_records_per_hour (df_filtered_of collection s e)
              Record.repo)
            (df_filtered_of collection s e) Record.repo "repo"
            ((date_range s e).map (fun t => t / 60))
        log_counts_per_hour :=
          log_counts_series (df_filtered_of collection s e)
            ((date_range s e).map (fun t => t / 60))
        group_counts_per_hour :=
          to_dict_format
            (count_records_per_hour (df_filtered_of collection s e)
              Record.group)
            (df_filtered_of collection s e) Record.group "_group"
            ((date_range s e).map (fun t => t / 60)) } := by
  rw [process_data_background]
  rw [if_neg (by rwa [ne_eq, ← List.isEmpty_iff] at hne)]
  rfl

theorem process_error (collection : List Record) (s e : Nat)
    (he : collection.filter (fun r => s ≤ r.t ∧ r.t ≤ e) = []) :
    process_data_background collection s e = Except.error "KeyError: nonce" := by
  rw [process_data_background]
  rw [if_pos (List.isEmpty_iff.mpr he)]

/-- Counting over the sorted, re-filtered frame equals counting over the
query result. -/
theorem countP_df_filtered (collection : List Record) (s e : Nat)
    (p : Record → Bool) :
    (df_filtered_of collection s e).countP p
      = (collection.filter (fun r => s ≤ r.t ∧ r.t ≤ e)).countP p := by
  rw [df_filtered_of]
  have hperm := List.perm_insertionSort (fun a b : Record => a.t ≤ b.t)
    (collection.filter (fun r => s ≤ r.t ∧ r.t ≤ e))
  have hall : ∀ r ∈ (collection.filter
      (fun r => s ≤ r.t ∧ r.t ≤ e)).insertionSort (fun a b => a.t ≤ b.t),
      (decide (s ≤ r.t ∧ r.t ≤ e)) = true := by
    intro r hr
    exact (List.mem_filter.mp (hperm.mem_iff.mp hr)).2
  rw [List.filter_eq_self.mpr hall]
  exact hperm.countP_eq p

theorem mem_df_filtered_iff (collection : List Record) (s e : Nat)
    (x : Record) :
    x ∈ df_filtered_of collection s e
      ↔ x ∈ collection.filter (fun r => s ≤ r.t ∧ r.t ≤ e) := by
  rw [df_filtered_of]
  have hperm := List.perm_insertionSort (fun a b : Record => a.t ≤ b.t)
    (collection.filter (fun r => s ≤ r.t ∧ r.t ≤ e))
  have hall : ∀ r ∈ (collection.filter
      (fun r => s ≤ r.t ∧ r.t ≤ e)).insertionSort (fun a b => a.t ≤ b.t),
      (decide (s ≤ r.t ∧ r.t ≤ e)) = true := by
    intro r hr
    exact (List.mem_filter.mp (hperm.mem_iff.mp hr)).2
  rw [List.filter_eq_self.mpr hall]
  exact hperm.mem_iff

/-- A value is observed by the frame iff some in-range record carries
it. -/
theorem obs_df_filtered_iff (collection : List Record) (s e : Nat)
    (f : Record → Option JVal) (v : Option JVal) :
    v ∈ (df_filtered_of collection s e).map f
      ↔ ∃ r ∈ collection, (s ≤ r.t ∧ r.t ≤ e) ∧ f r = v := by
  rw [List.mem_map]
  constructor
  · rintro ⟨r, hr, hv⟩
    have := (mem_df_filtered_iff collection s e r).mp hr
    have hmem := List.mem_filter.mp this
    refine ⟨r, hmem.1, ?_, hv⟩
    have := hmem.2
    rwa [decide_eq_true_eq] at this
  · rintro ⟨r, hr, hrange, hv⟩
    refine ⟨r, ?_, hv⟩
    rw [mem_df_filtered_iff]
    exact List.mem_filter.mpr ⟨hr, by rwa [decide_eq_true_eq]⟩

/-! ## Summing counts over a window of hour buckets -/
theorem countP_congr_here {α : Type} (l : List α) (p q : α → Bool)
    (h : ∀ x ∈ l, p x = q x) : l.countP p = l.countP q := by
  rw [List.countP_eq_length_filter, List.countP_eq_length_filter,
    List.filter_congr h]

theorem countP_split_disjoint {α : Type} (l : List α) (p q pq : α → Bool)
    (h : ∀ x ∈ l, (pq x = true ↔ (p x = true ∨ q x = true))
      ∧ ¬(p x = true ∧ q x = true)) :
    l.countP pq = l.countP p + l.countP q := by
  induction l with
  | nil => rfl
  | cons a t ih =>
    have ha := h a (List.mem_cons_self a t)
    have ht : ∀ x ∈ t, (pq x = true ↔ (p x = true ∨ q x = true))
        ∧ ¬(p x = true ∧ q x = true) :=
      fun x hx => h x (List.mem_cons_of_mem a hx)
    rw [List.countP_cons, List.countP_cons, List.countP_cons, ih ht]
    by_cases hp : p a = true
    · have hpq : pq a = true := ha.1.mpr (Or.inl hp)
      have hq : ¬ q a = true := fun hq => ha.2 ⟨hp, hq⟩
      rw [if_pos hpq, if_pos hp, if_neg hq]
      omega
    · by_cases hq : q a = true
      · have hpq : pq a = true := ha.1.mpr (Or.inr hq)
        rw [if_pos hpq, if_neg hp, if_pos hq]
        omega
      · have hpq : ¬ pq a = true := fun hpq => by
          rcases ha.1.mp hpq with h1 | h1
          · exact hp h1
          · exact hq h1
        rw [if_neg hpq, if_neg hp, if_neg hq]
        omega

/-- Summing per-hour counts over consecutive hour buckets counts the
records whose floored timestamp lies in the bucket window. -/
theorem sum_countP_floor (lst : List Record) (q : Record → Prop)
    [DecidablePred q] :
    ∀ (w v : Nat),
    ((List.range' v w).map (fun h =>
        lst.countP (fun r => r.t / 60 = h ∧ q r))).sum
      = lst.countP (fun r => (v ≤ r.t / 60 ∧ r.t / 60 < v + w) ∧ q r) := by
  intro w
  induction w with
  | zero =>
    intro v
    show (0 : Nat) = _
    symm
    rw [List.countP_eq_zero]
    intro r _ hr
    rw [decide_eq_true_eq] at hr
    omega
  | succ w ih =>
    intro v
    rw [List.range'_succ, List.map_cons, List.sum_cons, ih (v + 1)]
    symm
    apply countP_split_disjoint
    intro x _
    simp only [decide_eq_true_eq]
    constructor
    · constructor
      · rintro ⟨⟨h1, h2⟩, hq⟩
        by_cases hfl : x.t / 60 = v
        · exact Or.inl ⟨hfl, hq⟩
        · exact Or.inr ⟨⟨by omega, by omega⟩, hq⟩
      · rintro (⟨h1, hq⟩ | ⟨⟨h1, h2⟩, hq⟩)
        · exact ⟨⟨by omega, by omega⟩, hq⟩
        · exact ⟨⟨by omega, by omega⟩, hq⟩
    · rintro ⟨⟨h1, _⟩, ⟨h2, _⟩, _⟩
      omega

/-- A contiguous window of a per-hour sequence built over `range'`. -/
theorem map_range'_window (c : Nat → Nat) (u a w n : Nat) (h : a + w ≤ n) :
    (((List.range' u n).map c).drop a).take w
      = (List.range' (u + a) w).map c := by
  have h1 : List.range' u n = List.range' u a ++ List.range' (u + a) (n - a) := by
    have h3 := List.range'_append u a (n - a) 1
    rw [one_mul, (by omega : n - a + a = n)] at h3
    exact h3.symm
  rw [h1, List.map_append,
    List.drop_left' (by rw [List.length_map, List.length_range'])]
  have h2 : List.range' (u + a) (n - a)
      = List.range' (u + a) w ++ List.range' (u + a + w) (n - a - w) := by
    have h3 := List.range'_append (u + a) w (n - a - w) 1
    rw [one_mul, (by omega : n - a - w + w = n - a)] at h3
    exact h3.symm
  rw [h2, List.map_append,
    List.take_left' (by rw [List.length_map, List.length_range'])]

/-- Core of the conservation property, for one dimension accessor. -/
theorem conservation_core (collection : List Record) (s e : Nat)
    (f : Record → Option JVal) (field : String) (jv : JVal) (a b : Nat)
    (hse : s ≤ e)
    (hobs : some jv ∈ (df_filtered_of collection s e).map f)
    (hab : a ≤ b) (hb : b < (e - s) / 60 + 1) :
    ∃ cl, dictGet (to_dict_format
          (count_records_per_hour (df_filtered_of collection s e) f)
          (df_filtered_of collection s e) f field
          ((date_range s e).map (fun t => t / 60))) (some jv)
        = some (PEntry.counts cl) ∧
      cl.length = (e - s) / 60 + 1 ∧
      ((cl.drop a).take (b + 1 - a)).sum
        = (collection.filter (fun r => (s ≤ r.t ∧ r.t ≤ e) ∧ f r = some jv
            ∧ s / 60 + a ≤ r.t / 60 ∧ r.t / 60 ≤ s / 60 + b)).length := by
  refine ⟨_, to_dict_format_get_value _ f field _ jv hobs, ?_, ?_⟩
  · rw [List.length_map, List.length_map, date_range_length s e hse]
  · rw [dates_axis_eq s e hse,
      map_range'_window _ (s / 60) a (b + 1 - a) ((e - s) / 60 + 1) (by omega)]
    have hsum := sum_countP_floor (df_filtered_of collection s e)
      (fun r => f r = some jv) (b + 1 - a) (s / 60 + a)
    rw [hsum, countP_df_filtered, List.countP_filter]
    rw [← List.countP_eq_length_filter]
    apply countP_congr_here
    intro x _
    rw [Bool.eq_iff_iff]
    simp only [Bool.and_eq_true, decide_eq_true_eq]
    constructor
    · rintro ⟨⟨⟨h1, h2⟩, h3⟩, h4⟩
      exact ⟨h4, h3, h1, by omega⟩
    · rintro ⟨h1, h2, h3, h4⟩
      exact ⟨⟨⟨h3, by omega⟩, h2⟩, h1⟩

/-! ## Claim theorems: the hourly builder -/
/-- C1, counterexample.  With `start = 0:50` and `end = 2:10` (minutes 50
and 130) the builder's `dates` axis has the two labels for hours 0 and 1,
while the claim demands one label per whole hour from `floor(start)` to
`floor(end)` inclusive — the three hours 0, 1 and 2.  `pd.date_range` is
start-anchored and never reaches the instant 2:50, so hour 2 is missing
although an in-range record (e.g. at 2:05) would floor into it. -/
theorem c1_counterexample :
    (process_data_background [⟨55, "r1", none, none, none, none, none⟩]
        50 130).toOption.map (fun a => a.dates) = some [0, 1]
    ∧ (130 / 60 - 50 / 60 + 1 : Nat) = 3
    ∧ ([0, 1] : List Nat).length ≠ 3 := by
  refine ⟨rfl, rfl, by decide⟩

/-- C1, amended.  On a successful run (nonempty query result, hence
`start ≤ end`) the `dates` axis is the consecutive hour labels
`floor(start), floor(start)+1, …` of length `(end − start)/1h + 1` —
start-anchored stepping, not the floored-endpoint span.  That length
equals the claim's `floor(end) − floor(start) + 1` exactly when start's
sub-hour offset does not exceed end's.  Every dimension table's count
sequence and the log-count sequence have the length of `dates`. -/
theorem c1_amended (collection : List Record) (s e : Nat)
    (hne : collection.filter (fun r => s ≤ r.t ∧ r.t ≤ e) ≠ []) :
    ∃ art, process_data_background collection s e = Except.ok art ∧
      art.dates = List.range' (s / 60) ((e - s) / 60 + 1) ∧
      art.dates.length = (e - s) / 60 + 1 ∧
      (art.dates.length = e / 60 - s / 60 + 1 ↔ s % 60 ≤ e % 60) ∧
      (∀ tbl ∈ [art.module_counts_per_hour, art.label_counts_per_hour,
          art.method_counts_per_hour, art.repo_counts_per_hour,
          art.group_counts_per_hour], ∀ k l,
        dictGet tbl k = some (PEntry.counts l) → l.length = art.dates.length) ∧
      art.log_counts_per_hour.length = art.dates.length := by
  have hse : s ≤ e := by
    rcases List.exists_mem_of_ne_nil _ hne with ⟨r, hr⟩
    have := (List.mem_filter.mp hr).2
    rw [decide_eq_true_eq] at this
    omega
  refine ⟨_, process_ok collection s e hne, ?_, ?_, ?_, ?_, ?_⟩
  · exact dates_axis_eq s e hse
  · show ((date_range s e).map (fun t => t / 60)).length = _
    rw [dates_axis_eq s e hse, List.length_range']
  · show ((date_range s e).map (fun t => t / 60)).length = _ ↔ _
    rw [dates_axis_eq s e hse, List.length_range']
    omega
  · intro tbl htbl k l h
    show l.length = ((date_range s e).map (fun t => t / 60)).length
    simp only [List.mem_cons, List.not_mem_nil, or_false] at htbl
    rcases htbl with rfl | rfl | rfl | rfl | rfl <;>
      exact to_dict_format_counts_length _ _ _ _ _ _ _ h
  · show (log_counts_series _ _).length = _
    rw [log_counts_series, List.length_map]

/-- C1, witness for the amended theorem at the counterexample's input. -/
theorem c1_amended_witness :
    (([⟨55, "r1", none, none, none, none, none⟩] : List Record).filter
        (fun r => 50 ≤ r.t ∧ r.t ≤ 130) ≠ []) ∧
      ∃ art, process_data_background
          [⟨55, "r1", none, none, none, none, none⟩] 50 130
          = Except.ok art ∧
        art.dates = List.range' (50 / 60) ((130 - 50) / 60 + 1) ∧
        art.dates.length = (130 - 50) / 60 + 1 ∧
        (art.dates.length = 130 / 60 - 50 / 60 + 1 ↔ 50 % 60 ≤ 130 % 60) ∧
        (∀ tbl ∈ [art.module_counts_per_hour, art.label_counts_per_hour,
            art.method_counts_per_hour, art.repo_counts_per_hour,
            art.group_counts_per_hour], ∀ k l,
          dictGet tbl k = some (PEntry.counts l) →
            l.length = art.dates.length) ∧
        art.log_counts_per_hour.length = art.dates.length :=
  ⟨by decide, c1_amended _ 50 130 (by decide)⟩

/-- C2, evaluation at the failing input.  One record at minute 10 (hour 0)
with no `module` field, range `[0, 60]`: the record is in range (the log
count for hour 0 is 1), the missing-value sentinel does appear in
`module_index`, but its count sequence is `[0, 0]` — the record was
dropped by `groupby` and is counted in no bucket, while the claim requires
the `"null"` bucket's hour-0 count to include it. -/
theorem c2_null_bucket_eval :
    (process_data_background [⟨10, "r1", none, none, none, none, none⟩]
        0 60).toOption.map (fun a =>
          (dictGet a.module_counts_per_hour (some (JVal.str "module_index")),
            dictGet a.module_counts_per_hour none,
            a.log_counts_per_hour))
      = some (some (PEntry.idx [none]), some (PEntry.counts [0, 0]), [1, 0]) :=
  rfl

/-- C6, evaluation at the failing inputs.  With an inverted range (or a
range holding no records) the Mongo query returns nothing, the empty
`DataFrame` has no `nonce` column, line 52 raises `KeyError`, and the
function returns `False` — it neither returns nor persists any artifact,
empty-shaped or otherwise. -/
theorem c6_empty_range_eval :
    process_data_background [⟨90, "r1", none, none, none, none, none⟩] 120 60
        = Except.error "KeyError: nonce"
    ∧ process_data_background [⟨10, "r1", none, none, none, none, none⟩] 60 120
        = Except.error "KeyError: nonce" :=
  ⟨rfl, rfl⟩

/-- C10.  A record whose `module` value is the literal string
`"module_index"`: `result[value] = …` overwrites the index binding, so the
table maps `"module_index"` to the value's per-hour count list and no
value index remains in the table. -/
theorem c10_index_key_collision :
    (process_data_background
        [⟨0, "r1", some (JVal.str "module_index"), none, none, none, none⟩]
        0 0).toOption.map (fun a => a.module_counts_per_hour)
      = some [(some (JVal.str "module_index"), PEntry.counts [1])]
    ∧ ∀ vs, dictGet [(some (JVal.str "module_index"), PEntry.counts [1])]
        (some (JVal.str "module_index")) ≠ some (PEntry.idx vs) := by
  refine ⟨rfl, ?_⟩
  intro vs h
  rw [dictGet_cons, if_pos rfl] at h
  simp at h

/-- C5, counterexample.  One record with module `"A"`, range `[0, 60]`:
`dates` has 2 entries but the table's explicit `module_index` key maps to
the 1-element value list — not a sequence of length `len(dates)` as the
claim demands of every key. -/
theorem c5_counterexample :
    (process_data_background [⟨0, "r1", some (JVal.str "A"), none, none,
        none, none⟩] 0 60).toOption.map (fun a =>
          (a.dates.length,
            dictGet a.module_counts_per_hour (some (JVal.str "module_index"))))
      = some (2, some (PEntry.idx [some (JVal.str "A")]))
    ∧ ([some (JVal.str "A")] : List (Option JVal)).length ≠ 2 :=
  ⟨rfl, by decide⟩

/-- C5, amended.  In every produced artifact, every key bound to a count
sequence has length `len(dates)` (missing data is zero-filled, never a
shorter list), and each table binds its `<field>_index` key; but the index
key maps to the list of distinct observed values, whose length is the
number of distinct values, not `len(dates)`. -/
theorem c5_amended (collection : List Record) (s e : Nat)
    (hne : collection.filter (fun r => s ≤ r.t ∧ r.t ≤ e) ≠ []) :
    ∃ art, process_data_background collection s e = Except.ok art ∧
      (∀ p ∈ [(art.module_counts_per_hour, "module"),
          (art.label_counts_per_hour, "_label"),
          (art.method_counts_per_hour, "method"),
          (art.repo_counts_per_hour, "repo"),
          (art.group_counts_per_hour, "_group")],
        (∀ k l, dictGet p.1 k = some (PEntry.counts l) →
          l.length = art.dates.length) ∧
        (dictGet p.1 (some (JVal.str (p.2 ++ "_index")))).isSome = true) ∧
      art.log_counts_per_hour.length = art.dates.length := by
  refine ⟨_, process_ok collection s e hne, ?_, ?_⟩
  · intro p hp
    simp only [List.mem_cons, List.not_mem_nil, or_false] at hp
    rcases hp with rfl | rfl | rfl | rfl | rfl <;>
      refine ⟨fun k l h => to_dict_format_counts_length _ _ _ _ _ _ _ h, ?_⟩ <;>
      · rw [dictGet_isSome_iff, to_dict_format_eq, mem_keys_insertAll]
        left
        simp
  · show (log_counts_series _ _).length = _
    rw [log_counts_series, List.length_map]

/-- C5, witness for the amended theorem. -/
theorem c5_amended_witness :
    (([⟨0, "r1", some (JVal.str "A"), none, none, none, none⟩] : List Record).filter
        (fun r => 0 ≤ r.t ∧ r.t ≤ 60) ≠ []) ∧
      ∃ art, process_data_background
          [⟨0, "r1", some (JVal.str "A"), none, none, none, none⟩] 0 60
          = Except.ok art ∧
        (∀ p ∈ [(art.module_counts_per_hour, "module"),
            (art.label_counts_per_hour, "_label"),
            (art.method_counts_per_hour, "method"),
            (art.repo_counts_per_hour, "repo"),
            (art.group_counts_per_hour, "_group")],
          (∀ k l, dictGet p.1 k = some (PEntry.counts l) →
            l.length = art.dates.length) ∧
          (dictGet p.1 (some (JVal.str (p.2 ++ "_index")))).isSome = true) ∧
        art.log_counts_per_hour.length = art.dates.length :=
  ⟨by decide, c5_amended _ 0 60 (by decide)⟩

/-- C4.  For every record set and range, every tracked dimension, every
observed value `jv`, and every contiguous sub-range of hour buckets
(positions `a..b` of the `dates` axis), the sum of `jv`'s hourly counts
over the sub-range equals the number of records whose dimension field is
`jv` and whose timestamp lies in the queried range and floors into one of
those buckets (bucket `i` holds hour `floor(start) + i`). -/
theorem c4_conservation (collection : List Record) (s e : Nat)
    (dim : (Record → Option JVal) ×
      (HourlyArtifact → List (Option JVal × PEntry)))
    (hdim : dim ∈ dims5) (jv : JVal) (a b : Nat)
    (hobs : ∃ r ∈ collection, (s ≤ r.t ∧ r.t ≤ e) ∧ dim.1 r = some jv)
    (hab : a ≤ b) (hb : b < (e - s) / 60 + 1) :
    ∃ art cl, process_data_background collection s e = Except.ok art ∧
      dictGet (dim.2 art) (some jv) = some (PEntry.counts cl) ∧
      cl.length = (e - s) / 60 + 1 ∧
      ((cl.drop a).take (b + 1 - a)).sum
        = (collection.filter (fun r => (s ≤ r.t ∧ r.t ≤ e) ∧ dim.1 r = some jv
            ∧ s / 60 + a ≤ r.t / 60 ∧ r.t / 60 ≤ s / 60 + b)).length := by
  obtain ⟨r, hr, hrange, hfv⟩ := hobs
  have hne : collection.filter (fun r => s ≤ r.t ∧ r.t ≤ e) ≠ [] :=
    List.ne_nil_of_mem (List.mem_filter.mpr
      ⟨hr, by rw [decide_eq_true_eq]; exact hrange⟩)
  have hse : s ≤ e := by omega
  have hobs2 : some jv ∈ (df_filtered_of collection s e).map dim.1 :=
    (obs_df_filtered_iff collection s e dim.1 (some jv)).mpr ⟨r, hr, hrange, hfv⟩
  simp only [dims5, List.mem_cons, List.not_mem_nil, or_false] at hdim
  rcases hdim with rfl | rfl | rfl | rfl | rfl <;>
  · obtain ⟨cl, h1, h2, h3⟩ :=
      conservation_core collection s e _ _ jv a b hse hobs2 hab hb
    exact ⟨_, cl, process_ok collection s e hne, h1, h2, h3⟩

/-- C4, witness: one record with module `"A"` at minute 0, range
`[0, 60]`, summed over bucket positions 0..1. -/
theorem c4_conservation_witness :
    ((Record.module, HourlyArtifact.module_counts_per_hour) ∈ dims5) ∧
    (∃ r ∈ ([⟨0, "r1", some (JVal.str "A"), none, none, none, none⟩] :
        List Record), ((0:Nat) ≤ r.t ∧ r.t ≤ 60) ∧ r.module = some (JVal.str "A")) ∧
    (0:Nat) ≤ 1 ∧ (1:Nat) < (60 - 0) / 60 + 1 ∧
    ∃ art cl, process_data_background
        [⟨0, "r1", some (JVal.str "A"), none, none, none, none⟩] 0 60
        = Except.ok art ∧
      dictGet (art.module_counts_per_hour) (some (JVal.str "A"))
        = some (PEntry.counts cl) ∧
      cl.length = (60 - 0) / 60 + 1 ∧
      ((cl.drop 0).take (1 + 1 - 0)).sum
        = (([⟨0, "r1", some (JVal.str "A"), none, none, none, none⟩] :
            List Record).filter (fun r => ((0:Nat) ≤ r.t ∧ r.t ≤ 60)
              ∧ r.module = some (JVal.str "A")
              ∧ 0 / 60 + 0 ≤ r.t / 60 ∧ r.t / 60 ≤ 0 / 60 + 1)).length :=
  ⟨List.mem_cons_self _ _,
   ⟨⟨0, "r1", some (JVal.str "A"), none, none, none, none⟩,
     List.mem_cons_self _ _, by decide, rfl⟩,
   by decide, by decide,
   c4_conservation [⟨0, "r1", some (JVal.str "A"), none, none, none, none⟩]
     0 60 (Record.module, HourlyArtifact.module_counts_per_hour)
     (List.mem_cons_self _ _) (JVal.str "A") 0 1
     ⟨⟨0, "r1", some (JVal.str "A"), none, none, none, none⟩,
       List.mem_cons_self _ _, by decide, rfl⟩
     (by decide) (by decide)⟩

/-- Every key of a `to_dict_format` table is the index key or an observed
value. -/
theorem to_dict_format_keys (counts : List ((Nat × JVal) × Nat))
    (df_filtered : List Record) (f : Record → Option JVal) (field : String)
    (all_hours_str : List Nat) (p : Option JVal × PEntry)
    (hp : p ∈ to_dict_format counts df_filtered f field all_hours_str) :
    p.1 = some (JVal.str (field ++ "_index")) ∨ p.1 ∈ df_filtered.map f := by
  rw [to_dict_format_eq] at hp
  have hkey := List.mem_map_of_mem Prod.fst hp
  rw [mem_keys_insertAll] at hkey
  rcases hkey with h | h
  · left
    simpa using h
  · right
    rw [map_pair_keys, mem_uniqueFS] at h
    exact h

/-- C7: the builder does not stringify index entries, so a non-string
dimension value never reaches the artifact stringified-consistently.
With a null `module` observed alongside the string "A" the table's keys
are `str`/`None` and `json.dump` succeeds: the null value's zero-filled
counts sit under the stringified lookup key "null", yet the
`module_index` entry for it is still the raw JSON `null` — not a string,
and not the lookup key's form.  (Homogeneous numeric or boolean values
never reach a serialized artifact at all: their numpy-scalar dict keys
make `json.dump` raise `TypeError` and the builder returns `False`.) -/
theorem c7_null_index_eval :
    (process_data_background c7coll 0 0).toOption.map
        (fun art => serializeTable art.module_counts_per_hour)
      = some (some
          [("module_index", PEntry.idx [none, some (JVal.str "A")]),
           ("null", PEntry.counts [0]), ("A", PEntry.counts [1])])
    ∧ ∀ s : String, (none : Option JVal) ≠ some (JVal.str s) :=
  ⟨rfl, fun _ h => Option.noConfusion h⟩

section
variable {K V : Type} [DecidableEq K]

/-! ## Supporting lemmas about the re-aggregators -/
theorem delFirst_sublist (d : List (K × V)) (k : K) :
    (delFirst d k).Sublist d := by
  induction d with
  | nil => exact List.Sublist.refl _
  | cons p rest ih =>
    obtain ⟨pk, pv⟩ := p
    by_cases hk : pk = k
    · subst hk
      show (if pk = pk then rest else _).Sublist _
      rw [if_pos rfl]
      exact List.sublist_cons_self _ _
    · show (if pk = k then _ else (pk, pv) :: delFirst rest k).Sublist _
      rw [if_neg hk]
      exact ih.cons₂ _

theorem nodup_keys_delFirst (d : List (K × V)) (k : K)
    (h : (d.map Prod.fst).Nodup) : ((delFirst d k).map Prod.fst).Nodup :=
  h.sublist ((delFirst_sublist d k).map Prod.fst)

theorem mem_delFirst (d : List (K × V)) (k : K) (p : K × V)
    (hnd : (d.map Prod.fst).Nodup) (hp : p ∈ delFirst d k) :
    p ∈ d ∧ p.1 ≠ k := by
  induction d with
  | nil => cases hp
  | cons q rest ih =>
    obtain ⟨qk, qv⟩ := q
    rw [List.map_cons, List.nodup_cons] at hnd
    by_cases hk : qk = k
    · subst hk
      rw [show delFirst ((qk, qv) :: rest) qk = rest from by
        show (if qk = qk then rest else _) = rest
        rw [if_pos rfl]] at hp
      refine ⟨List.mem_cons_of_mem _ hp, ?_⟩
      intro he
      apply hnd.1
      rw [← he]
      exact List.mem_map.mpr ⟨p, hp, rfl⟩
    · rw [show delFirst ((qk, qv) :: rest) k
          = (qk, qv) :: delFirst rest k from by
        show (if qk = k then _ else _) = _
        rw [if_neg hk]] at hp
      rcases List.mem_cons.mp hp with rfl | hp2
      · exact ⟨List.mem_cons_self _ _, hk⟩
      · obtain ⟨h1, h2⟩ := ih hnd.2 hp2
        exact ⟨List.mem_cons_of_mem _ h1, h2⟩

theorem mem_dictInsert_cases (d : List (K × V)) (k : K) (v : V) (p : K × V)
    (hp : p ∈ dictInsert d k v) : p = (k, v) ∨ p ∈ d := by
  induction d with
  | nil =>
    rcases List.mem_singleton.mp hp with rfl
    exact Or.inl rfl
  | cons q rest ih =>
    obtain ⟨qk, qv⟩ := q
    by_cases hk : qk = k
    · subst hk
      rw [dictInsert_cons_self] at hp
      rcases List.mem_cons.mp hp with rfl | hp2
      · exact Or.inl rfl
      · exact Or.inr (List.mem_cons_of_mem _ hp2)
    · rw [dictInsert_cons_ne _ _ _ _ _ hk] at hp
      rcases List.mem_cons.mp hp with rfl | hp2
      · exact Or.inr (List.mem_cons_self _ _)
      · rcases ih hp2 with h | h
        · exact Or.inl h
        · exact Or.inr (List.mem_cons_of_mem _ h)

theorem mem_insertAll_cases (d acc : List (K × V)) (p : K × V)
    (hp : p ∈ insertAll acc d) : p ∈ acc ∨ p ∈ d := by
  induction d generalizing acc with
  | nil => exact Or.inl hp
  | cons q rest ih =>
    rcases ih (dictInsert acc q.1 q.2) hp with h | h
    · rcases mem_dictInsert_cases _ _ _ _ h with h2 | h2
      · right
        rw [h2]
        show (q.1, q.2) ∈ q :: rest
        rw [show (q.1, q.2) = q from rfl]
        exact List.mem_cons_self _ _
      · exact Or.inl h2
    · exact Or.inr (List.mem_cons_of_mem _ h)

theorem dictGet_map_value {W : Type} (l : List (K × V)) (g : V → W) (k : K) :
    dictGet (l.map (fun p => (p.1, g p.2))) k = (dictGet l k).map g := by
  induction l with
  | nil => rfl
  | cons p rest ih =>
    obtain ⟨pk, pv⟩ := p
    rw [List.map_cons]
    by_cases hk : pk = k
    · subst hk
      rw [dictGet_cons, dictGet_cons, if_pos rfl, if_pos rfl, Option.map_some']
    · rw [dictGet_cons, dictGet_cons, if_neg hk, if_neg hk, ih]

theorem keys_map_value {W : Type} (l : List (K × V)) (g : V → W) :
    (l.map (fun p => (p.1, g p.2))).map Prod.fst = l.map Prod.fst := by
  rw [List.map_map]
  rfl

end

theorem colsOf_eq_some (d : List (String × PEntry))
    (h : ∀ p ∈ d, ∃ l, p.2 = PEntry.counts l) :
    colsOf d = some (d.map (fun p => (p.1, countsOf p.2))) := by
  induction d with
  | nil => rfl
  | cons p rest ih =>
    obtain ⟨pk, pe⟩ := p
    obtain ⟨l, hl⟩ := h (pk, pe) (List.mem_cons_self _ _)
    simp only at hl
    subst hl
    show (colsOf rest).map _ = _
    rw [ih (fun q hq => h q (List.mem_cons_of_mem _ hq)), Option.map_some']
    rfl

theorem zip_map_snd {A B : Type} : ∀ (l₁ : List A) (l₂ : List B),
    l₁.length = l₂.length → (l₁.zip l₂).map Prod.snd = l₂ := by
  intro l₁
  induction l₁ with
  | nil =>
    intro l₂ h
    rw [List.length_nil] at h
    have h2 : l₂ = [] := by
      rw [← List.length_eq_zero]
      omega
    subst h2
    rfl
  | cons x xs ih =>
    intro l₂ h
    cases l₂ with
    | nil => simp at h
    | cons y ys =>
      show (x, y).2 :: (xs.zip ys).map Prod.snd = y :: ys
      rw [ih ys (by simp at h; omega)]

/-- The aggregated column sums to the hourly column:
`groupby("date").sum()` loses nothing. -/
theorem aggColumn_sum (truncs : List String) (col : List Nat)
    (hlen : truncs.length = col.length) :
    (aggColumn truncs col (sortDedup truncs)).sum = col.sum := by
  rw [aggColumn]
  have hcov : ∀ p ∈ truncs.zip col, p.1 ∈ sortDedup truncs := by
    intro p hp
    rw [mem_sortDedup]
    exact (List.of_mem_zip hp).1
  rw [sum_groupSums (sortDedup truncs) (truncs.zip col)
    (nodup_sortDedup truncs) hcov]
  rw [zip_map_snd truncs col hlen]

theorem delKey_of_mem {K V : Type} [DecidableEq K] (d : List (K × V)) (k : K)
    (h : k ∈ d.map Prod.fst) : delKey d k = some (delFirst d k) := by
  rw [delKey, if_pos]
  rw [List.find?_isSome]
  obtain ⟨p, hp, hk⟩ := List.mem_map.mp h
  exact ⟨p, hp, by simp [hk]⟩

theorem entryCountsLen_iff (en : PEntry) (n : Nat) :
    entryCountsLen en n = true ↔ ∃ l, en = PEntry.counts l ∧ l.length = n := by
  cases en with
  | idx l => simp [entryCountsLen]
  | counts l =>
    simp only [entryCountsLen, decide_eq_true_eq]
    constructor
    · intro h; exact ⟨l, rfl, h⟩
    · rintro ⟨l2, he, hl⟩
      cases he
      exact hl

theorem merged_entries (module label method repo : List (String × PEntry))
    (log : List Nat) (group : List (String × PEntry)) (n : Nat)
    (hmod : ∀ p ∈ module, ∃ l, p.2 = PEntry.counts l ∧ l.length = n)
    (hlab : ∀ p ∈ label, ∃ l, p.2 = PEntry.counts l ∧ l.length = n)
    (hmet : ∀ p ∈ method, ∃ l, p.2 = PEntry.counts l ∧ l.length = n)
    (hrep : ∀ p ∈ repo, ∃ l, p.2 = PEntry.counts l ∧ l.length = n)
    (hgrp : ∀ p ∈ group, ∃ l, p.2 = PEntry.counts l ∧ l.length = n)
    (hlog : log.length = n) :
    ∀ p ∈ mergedColumns module label method repo log group,
      ∃ l, p.2 = PEntry.counts l ∧ l.length = n := by
  intro p hp
  rw [mergedColumns] at hp
  rcases mem_insertAll_cases _ _ _ hp with hp | hp
  swap
  · exact hgrp p hp
  rcases mem_insertAll_cases _ _ _ hp with hp | hp
  swap
  · rcases List.mem_singleton.mp hp with rfl
    exact ⟨log, rfl, hlog⟩
  rcases mem_insertAll_cases _ _ _ hp with hp | hp
  swap
  · exact hrep p hp
  rcases mem_insertAll_cases _ _ _ hp with hp | hp
  swap
  · exact hmet p hp
  rcases mem_insertAll_cases _ _ _ hp with hp | hp
  swap
  · exact hlab p hp
  rcases mem_insertAll_cases _ _ _ hp with hp | hp
  · cases hp
  · exact hmod p hp

/-- A value key bound only in the module dict keeps its binding through
the merge. -/
theorem dictGet_merged_of_module (module label method repo :
      List (String × PEntry)) (log : List Nat)
    (group : List (String × PEntry)) (v : String) (en : PEntry)
    (hnd : (module.map Prod.fst).Nodup) (hv : dictGet module v = some en)
    (h2 : v ∉ label.map Prod.fst) (h3 : v ∉ method.map Prod.fst)
    (h4 : v ∉ repo.map Prod.fst) (h5 : v ≠ "log_counts_per_hour")
    (h6 : v ∉ group.map Prod.fst) :
    dictGet (mergedColumns module label method repo log group) v
      = some en := by
  rw [mergedColumns]
  rw [dictGet_insertAll_of_not_mem _ _ _ h6]
  rw [dictGet_insertAll_of_not_mem _ _ _ (by simpa using h5)]
  rw [dictGet_insertAll_of_not_mem _ _ _ h4]
  rw [dictGet_insertAll_of_not_mem _ _ _ h3]
  rw [dictGet_insertAll_of_not_mem _ _ _ h2]
  exact dictGet_insertAll_of_get _ _ _ _ hnd hv

/-- The log column keeps its binding through the merge unless the group
dict overwrites it. -/
theorem dictGet_merged_log (module label method repo :
      List (String × PEntry)) (log : List Nat)
    (group : List (String × PEntry))
    (h6 : "log_counts_per_hour" ∉ group.map Prod.fst) :
    dictGet (mergedColumns module label method repo log group)
        "log_counts_per_hour" = some (PEntry.counts log) := by
  rw [mergedColumns]
  rw [dictGet_insertAll_of_not_mem _ _ _ h6]
  refine dictGet_insertAll_of_get _ _ _ _ (by simp) ?_
  rw [dictGet_cons, if_pos rfl]

theorem log_key_mem_merged (module label method repo :
      List (String × PEntry)) (log : List Nat)
    (group : List (String × PEntry)) :
    "log_counts_per_hour"
      ∈ (mergedColumns module label method repo log group).map Prod.fst := by
  rw [mergedColumns, mem_keys_insertAll]
  left
  rw [mem_keys_insertAll]
  right
  simp

section
variable (agg : List (String × List Nat))

theorem bpd_aux_some : ∀ (l : List (Option JVal))
    (acc : List (String × PEntry)),
    (∀ x ∈ l, (dictGet agg (pyStr x)).isSome = true) →
    ∃ t, l.foldlM (fun acc e => (dictGet agg (pyStr e)).map
      (fun col => dictInsert acc (pyStr e) (PEntry.counts col))) acc
        = some t := by
  intro l
  induction l with
  | nil => intro acc _; exact ⟨acc, rfl⟩
  | cons x xs ih =>
    intro acc h
    obtain ⟨col, hcol⟩ := Option.isSome_iff_exists.mp
      (h x (List.mem_cons_self _ _))
    rw [List.foldlM_cons, hcol, Option.map_some']
    simp only [Option.bind_eq_bind, Option.some_bind]
    exact ih _ (fun y hy => h y (List.mem_cons_of_mem _ hy))

theorem bpd_aux_inv : ∀ (l : List (Option JVal))
    (acc t : List (String × PEntry)),
    l.foldlM (fun acc e => (dictGet agg (pyStr e)).map
      (fun col => dictInsert acc (pyStr e) (PEntry.counts col))) acc
        = some t →
    ∀ x ∈ l, (dictGet agg (pyStr x)).isSome = true := by
  intro l
  induction l with
  | nil => intro acc t _ x hx; cases hx
  | cons y ys ih =>
    intro acc t h x hx
    rw [List.foldlM_cons] at h
    simp only [Option.bind_eq_bind] at h
    rcases Option.bind_eq_some.mp h with ⟨acc2, hstep, hrest⟩
    rcases List.mem_cons.mp hx with rfl | hx2
    · rcases Option.map_eq_some'.mp hstep with ⟨col, hcol, _⟩
      rw [hcol]
      rfl
    · exact ih acc2 t hrest x hx2

theorem bpd_aux_notmem : ∀ (l : List (Option JVal))
    (acc t : List (String × PEntry)) (v : String),
    l.foldlM (fun acc e => (dictGet agg (pyStr e)).map
      (fun col => dictInsert acc (pyStr e) (PEntry.counts col))) acc
        = some t →
    v ∉ l.map pyStr → dictGet t v = dictGet acc v := by
  intro l
  induction l with
  | nil =>
    intro acc t v h _
    cases h
    rfl
  | cons y ys ih =>
    intro acc t v h hv
    rw [List.foldlM_cons] at h
    simp only [Option.bind_eq_bind] at h
    rcases Option.bind_eq_some.mp h with ⟨acc2, hstep, hrest⟩
    rcases Option.map_eq_some'.mp hstep with ⟨col, hcol, hacc2⟩
    rw [List.map_cons, List.mem_cons, not_or] at hv
    rw [ih acc2 t v hrest hv.2, ← hacc2, dictGet_dictInsert,
      if_neg (fun he => hv.1 he.symm)]

theorem bpd_aux_get : ∀ (l : List (Option JVal))
    (acc t : List (String × PEntry)) (v : String) (col : List Nat),
    l.foldlM (fun acc e => (dictGet agg (pyStr e)).map
      (fun col => dictInsert acc (pyStr e) (PEntry.counts col))) acc
        = some t →
    v ∈ l.map pyStr → dictGet agg v = some col →
    dictGet t v = some (PEntry.counts col) := by
  intro l
  induction l with
  | nil =>
    intro acc t v col _ hv _
    cases hv
  | cons y ys ih =>
    intro acc t v col h hv hagg
    rw [List.foldlM_cons] at h
    simp only [Option.bind_eq_bind] at h
    rcases Option.bind_eq_some.mp h with ⟨acc2, hstep, hrest⟩
    rcases Option.map_eq_some'.mp hstep with ⟨coly, hcoly, hacc2⟩
    by_cases hmem : v ∈ ys.map pyStr
    · exact ih acc2 t v col hrest hmem hagg
    · have hvy : v = pyStr y := by
        rcases List.mem_cons.mp hv with h1 | h1
        · exact h1
        · exact absurd h1 hmem
      subst hvy
      rw [bpd_aux_notmem agg ys acc2 t _ hrest hmem, ← hacc2,
        dictGet_dictInsert, if_pos rfl]
      rw [hagg] at hcoly
      rw [Option.some.injEq] at hcoly
      rw [hcoly]

end

theorem buildPerDim_some (agg : List (String × List Nat))
    (l : List (Option JVal)) (name : String)
    (h : ∀ x ∈ l, (dictGet agg (pyStr x)).isSome = true) :
    ∃ t, buildPerDim agg l name = some t :=
  bpd_aux_some agg l _ h

theorem buildPerDim_inv (agg : List (String × List Nat))
    (l : List (Option JVal)) (name : String)
    (t : List (String × PEntry)) (h : buildPerDim agg l name = some t) :
    ∀ x ∈ l, (dictGet agg (pyStr x)).isSome = true :=
  bpd_aux_inv agg l _ t h

theorem buildPerDim_get (agg : List (String × List Nat))
    (l : List (Option JVal)) (name : String)
    (t : List (String × PEntry)) (v : String) (col : List Nat)
    (h : buildPerDim agg l name = some t) (hv : v ∈ l.map pyStr)
    (hagg : dictGet agg v = some col) :
    dictGet t v = some (PEntry.counts col) :=
  bpd_aux_get agg l _ t v col h hv hagg

/-- Full characterisation of `reaggregate` on a well-shaped merged frame:
it succeeds; its `dates` are the sorted distinct coarse labels; the log
column and every resolvable dimension column are the per-label sums of the
corresponding merged column. -/
theorem reaggregate_spec (w : Nat)
    (mt lt met rt gt merged : List (String × PEntry)) (ds : List String)
    (hent : ∀ p ∈ merged, ∃ l, p.2 = PEntry.counts l ∧ l.length = ds.length)
    (hdate : "date" ∉ merged.map Prod.fst)
    (hidx : ∀ q ∈ [(mt, "module_index"), (lt, "_label_index"),
      (met, "method_index"), (rt, "repo_index"), (gt, "_group_index")],
      q.2 ∈ q.1.map Prod.fst)
    (hres : ∀ q ∈ [(mt, "module_index"), (lt, "_label_index"),
      (met, "method_index"), (rt, "repo_index"), (gt, "_group_index")],
      ((dictGet q.1 q.2).all (fun en => (entryElems en).all
        (fun x => decide (pyStr x ∈ merged.map Prod.fst)))) = true)
    (hlogkey : "log_counts_per_hour" ∈ merged.map Prod.fst) :
    ∃ r, reaggregate w mt lt met rt gt merged ds = some r ∧
      r.dates = sortDedup (ds.map (fun d => d.take w)) ∧
      (∀ log2, dictGet merged "log_counts_per_hour"
          = some (PEntry.counts log2) →
        r.log_counts = aggColumn (ds.map (fun d => d.take w)) log2
          (sortDedup (ds.map (fun d => d.take w)))) ∧
      (∀ trip ∈ reaggTrips mt lt met rt gt,
        ∀ en, dictGet trip.1 trip.2.1 = some en →
        ∀ v hl, v ∈ (entryElems en).map pyStr →
          dictGet merged v = some (PEntry.counts hl) →
          dictGet (trip.2.2 r) v = some (PEntry.counts
            (aggColumn (ds.map (fun d => d.take w)) hl
              (sortDedup (ds.map (fun d => d.take w)))))) := by
  have hcols : colsOf merged
      = some (merged.map (fun p => (p.1, countsOf p.2))) :=
    colsOf_eq_some merged (fun p hp => ⟨(hent p hp).choose,
      (hent p hp).choose_spec.1⟩)
  have hkeyscols : (merged.map (fun p => (p.1, countsOf p.2))).map Prod.fst
      = merged.map Prod.fst := keys_map_value merged countsOf
  have hkeysagg : (((merged.map (fun p => (p.1, countsOf p.2))).map
      (fun p => (p.1, aggColumn (ds.map (fun d => d.take w)) p.2
        (sortDedup (ds.map (fun d => d.take w)))))).map Prod.fst)
      = merged.map Prod.fst :=
    (keys_map_value (merged.map (fun p => (p.1, countsOf p.2)))
      (fun c => aggColumn (ds.map (fun d => d.take w)) c
        (sortDedup (ds.map (fun d => d.take w))))).trans hkeyscols
  have hall : ((merged.map (fun p => (p.1, countsOf p.2))).all
      (fun p => p.2.length = (ds.map (fun d => d.take w)).length)) = true := by
    rw [List.all_eq_true]
    intro p hp
    obtain ⟨q, hq, rfl⟩ := List.mem_map.mp hp
    obtain ⟨l, h1, h2⟩ := hent q hq
    rw [decide_eq_true_eq]
    show (countsOf q.2).length = _
    rw [h1]
    show l.length = _
    rw [List.length_map]
    exact h2
  have haggget : ∀ (v : String) (hl : List Nat),
      dictGet merged v = some (PEntry.counts hl) →
      dictGet ((merged.map (fun p => (p.1, countsOf p.2))).map
        (fun p => (p.1, aggColumn (ds.map (fun d => d.take w)) p.2
          (sortDedup (ds.map (fun d => d.take w)))))) v
        = some (aggColumn (ds.map (fun d => d.take w)) hl
            (sortDedup (ds.map (fun d => d.take w)))) := by
    intro v hl hv
    rw [dictGet_map_value (merged.map (fun p => (p.1, countsOf p.2)))
      (fun c => aggColumn (ds.map (fun d => d.take w)) c
        (sortDedup (ds.map (fun d => d.take w)))) v,
      dictGet_map_value merged countsOf v, hv, Option.map_some',
      Option.map_some']
    rfl
  have hsome : ∀ (v : String), v ∈ merged.map Prod.fst →
      (dictGet ((merged.map (fun p => (p.1, countsOf p.2))).map
        (fun p => (p.1, aggColumn (ds.map (fun d => d.take w)) p.2
          (sortDedup (ds.map (fun d => d.take w)))))) v).isSome = true := by
    intro v hv
    rw [dictGet_isSome_iff, hkeysagg]
    exact hv
  -- index entries of the five tables
  have hmI := Option.isSome_iff_exists.mp ((dictGet_isSome_iff mt
    "module_index").mpr (hidx (mt, "module_index") (by simp)))
  obtain ⟨mIdxE, hmIdxE⟩ := hmI
  have hlI := Option.isSome_iff_exists.mp ((dictGet_isSome_iff lt
    "_label_index").mpr (hidx (lt, "_label_index") (by simp)))
  obtain ⟨lIdxE, hlIdxE⟩ := hlI
  have hmetI := Option.isSome_iff_exists.mp ((dictGet_isSome_iff met
    "method_index").mpr (hidx (met, "method_index") (by simp)))
  obtain ⟨metIdxE, hmetIdxE⟩ := hmetI
  have hrI := Option.isSome_iff_exists.mp ((dictGet_isSome_iff rt
    "repo_index").mpr (hidx (rt, "repo_index") (by simp)))
  obtain ⟨rIdxE, hrIdxE⟩ := hrI
  have hgI := Option.isSome_iff_exists.mp ((dictGet_isSome_iff gt
    "_group_index").mpr (hidx (gt, "_group_index") (by simp)))
  obtain ⟨gIdxE, hgIdxE⟩ := hgI
  -- resolvability of each index entry in the aggregated columns
  have hresE : ∀ (t : List (String × PEntry)) (k : String) (en : PEntry),
      ((dictGet t k).all (fun en => (entryElems en).all
        (fun x => decide (pyStr x ∈ merged.map Prod.fst)))) = true →
      dictGet t k = some en →
      ∀ x ∈ entryElems en,
        (dictGet ((merged.map (fun p => (p.1, countsOf p.2))).map
          (fun p => (p.1, aggColumn (ds.map (fun d => d.take w)) p.2
            (sortDedup (ds.map (fun d => d.take w)))))) (pyStr x)).isSome
          = true := by
    intro t k en hallE hen x hx
    rw [hen] at hallE
    have h2 := List.all_eq_true.mp hallE x hx
    rw [decide_eq_true_eq] at h2
    exact hsome _ h2
  obtain ⟨tmod, htmod⟩ := buildPerDim_some _ (entryElems mIdxE)
    "module_index" (hresE mt "module_index" mIdxE
      (hres (mt, "module_index") (by simp)) hmIdxE)
  obtain ⟨tlab, htlab⟩ := buildPerDim_some _ (entryElems lIdxE)
    "_label_index" (hresE lt "_label_index" lIdxE
      (hres (lt, "_label_index") (by simp)) hlIdxE)
  obtain ⟨tmet, htmet⟩ := buildPerDim_some _ (entryElems metIdxE)
    "method_index" (hresE met "method_index" metIdxE
      (hres (met, "method_index") (by simp)) hmetIdxE)
  obtain ⟨trep, htrep⟩ := buildPerDim_some _ (entryElems rIdxE)
    "repo_index" (hresE rt "repo_index" rIdxE
      (hres (rt, "repo_index") (by simp)) hrIdxE)
  obtain ⟨tgrp, htgrp⟩ := buildPerDim_some _ (entryElems gIdxE)
    "_group_index" (hresE gt "_group_index" gIdxE
      (hres (gt, "_group_index") (by simp)) hgIdxE)
  obtain ⟨logCol, hlogCol⟩ := Option.isSome_iff_exists.mp
    (hsome "log_counts_per_hour" hlogkey)
  refine ⟨⟨sortDedup (ds.map (fun d => d.take w)), tmod, tlab, tmet, trep,
    tgrp, logCol⟩, ?_, rfl, ?_, ?_⟩
  · rw [reaggregate]
    rw [if_neg hdate, hcols]
    simp only [Option.bind_eq_bind, Option.some_bind]
    rw [if_pos hall, hmIdxE]
    simp only [Option.bind_eq_bind, Option.some_bind]
    rw [htmod]
    simp only [Option.bind_eq_bind, Option.some_bind]
    rw [hlIdxE]
    simp only [Option.bind_eq_bind, Option.some_bind]
    rw [htlab]
    simp only [Option.bind_eq_bind, Option.some_bind]
    rw [hmetIdxE]
    simp only [Option.bind_eq_bind, Option.some_bind]
    rw [htmet]
    simp only [Option.bind_eq_bind, Option.some_bind]
    rw [hrIdxE]
    simp only [Option.bind_eq_bind, Option.some_bind]
    rw [htrep]
    simp only [Option.bind_eq_bind, Option.some_bind]
    rw [hgIdxE]
    simp only [Option.bind_eq_bind, Option.some_bind]
    rw [htgrp]
    simp only [Option.bind_eq_bind, Option.some_bind]
    rw [hlogCol]
    simp only [Option.bind_eq_bind, Option.some_bind]
  · intro log2 hlog2
    have := haggget _ _ hlog2
    rw [hlogCol] at this
    rw [Option.some.injEq] at this
    show logCol = _
    exact this
  · intro trip htrip en hen v hl hv hmv
    simp only [reaggTrips, List.mem_cons, List.not_mem_nil, or_false]
      at htrip
    rcases htrip with rfl | rfl | rfl | rfl | rfl
    · rw [hmIdxE, Option.some.injEq] at hen
      subst hen
      exact buildPerDim_get _ _ _ _ _ _ htmod hv (haggget v hl hmv)
    · rw [hlIdxE, Option.some.injEq] at hen
      subst hen
      exact buildPerDim_get _ _ _ _ _ _ htlab hv (haggget v hl hmv)
    · rw [hmetIdxE, Option.some.injEq] at hen
      subst hen
      exact buildPerDim_get _ _ _ _ _ _ htmet hv (haggget v hl hmv)
    · rw [hrIdxE, Option.some.injEq] at hen
      subst hen
      exact buildPerDim_get _ _ _ _ _ _ htrep hv (haggget v hl hmv)
    · rw [hgIdxE, Option.some.injEq] at hen
      subst hen
      exact buildPerDim_get _ _ _ _ _ _ htgrp hv (haggget v hl hmv)

/-- Full characterisation of `sum_by_trunc` on a well-shaped loaded
artifact: it succeeds, the result dates are the sorted distinct truncated
labels, and the log / dimension columns are per-label sums of the merged
frame's columns. -/
theorem sum_by_trunc_spec (w : Nat) (g : LoadedGraph)
    (mt lt met rt gt merged : List (String × PEntry)) (log : List Nat)
    (ds : List String)
    (hgm : g.module_counts_per_hour = some mt)
    (hgl : g.label_counts_per_hour = some lt)
    (hgmet : g.method_counts_per_hour = some met)
    (hgr : g.repo_counts_per_hour = some rt)
    (hglog : g.log_counts_per_hour = some log)
    (hgg : g.group_counts_per_hour = some gt)
    (hgd : g.dates = some ds)
    (hmg : merged = mergedColumns (delFirst mt "module_index")
      (delFirst lt "_label_index") (delFirst met "method_index")
      (delFirst rt "repo_index") log (delFirst gt "_group_index"))
    (hndm : (mt.map Prod.fst).Nodup) (hndl : (lt.map Prod.fst).Nodup)
    (hndmet : (met.map Prod.fst).Nodup) (hndr : (rt.map Prod.fst).Nodup)
    (hndg : (gt.map Prod.fst).Nodup)
    (hshm : tableShaped mt "module_index" ds.length)
    (hshl : tableShaped lt "_label_index" ds.length)
    (hshmet : tableShaped met "method_index" ds.length)
    (hshr : tableShaped rt "repo_index" ds.length)
    (hshg : tableShaped gt "_group_index" ds.length)
    (hloglen : log.length = ds.length)
    (hdate : "date" ∉ merged.map Prod.fst)
    (hres : ∀ q ∈ [(mt, "module_index"), (lt, "_label_index"),
      (met, "method_index"), (rt, "repo_index"), (gt, "_group_index")],
      ((dictGet q.1 q.2).all (fun en => (entryElems en).all
        (fun x => decide (pyStr x ∈ merged.map Prod.fst)))) = true) :
    ∃ r, sum_by_trunc w g = some r ∧
      r.dates = sortDedup (ds.map (fun d => d.take w)) ∧
      ("log_counts_per_hour" ∉ (delFirst gt "_group_index").map Prod.fst →
        r.log_counts = aggColumn (ds.map (fun d => d.take w)) log
          (sortDedup (ds.map (fun d => d.take w)))) ∧
      (∀ trip ∈ reaggTrips mt lt met rt gt,
        ∀ en, dictGet trip.1 trip.2.1 = some en →
        ∀ v hl, v ∈ (entryElems en).map pyStr →
          dictGet merged v = some (PEntry.counts hl) →
          dictGet (trip.2.2 r) v = some (PEntry.counts
            (aggColumn (ds.map (fun d => d.take w)) hl
              (sortDedup (ds.map (fun d => d.take w)))))) := by
  subst hmg
  have hshaped : ∀ (t : List (String × PEntry)) (k : String),
      (t.map Prod.fst).Nodup → tableShaped t k ds.length →
      ∀ p ∈ delFirst t k, ∃ l, p.2 = PEntry.counts l
        ∧ l.length = ds.length := by
    intro t k hnd hsh p hp
    have h2 := mem_delFirst t k p hnd hp
    rcases hsh.2 p h2.1 with h | h
    · exact absurd h h2.2
    · exact (entryCountsLen_iff _ _).mp h
  have hent := merged_entries (delFirst mt "module_index")
    (delFirst lt "_label_index") (delFirst met "method_index")
    (delFirst rt "repo_index") log (delFirst gt "_group_index") ds.length
    (hshaped mt "module_index" hndm hshm)
    (hshaped lt "_label_index" hndl hshl)
    (hshaped met "method_index" hndmet hshmet)
    (hshaped rt "repo_index" hndr hshr)
    (hshaped gt "_group_index" hndg hshg) hloglen
  have hidx : ∀ q ∈ [(mt, "module_index"), (lt, "_label_index"),
      (met, "method_index"), (rt, "repo_index"), (gt, "_group_index")],
      q.2 ∈ q.1.map Prod.fst := by
    intro q hq
    simp only [List.mem_cons, List.not_mem_nil, or_false] at hq
    rcases hq with rfl | rfl | rfl | rfl | rfl
    · exact hshm.1
    · exact hshl.1
    · exact hshmet.1
    · exact hshr.1
    · exact hshg.1
  obtain ⟨r, hr, hdates, hlog2, htrips⟩ := reaggregate_spec w mt lt met rt
    gt _ ds hent hdate hidx hres (log_key_mem_merged _ _ _ _ _ _)
  have hrun : sum_by_trunc w g = reaggregate w mt lt met rt gt
      (mergedColumns (delFirst mt "module_index")
        (delFirst lt "_label_index") (delFirst met "method_index")
        (delFirst rt "repo_index") log (delFirst gt "_group_index")) ds := by
    simp only [sum_by_trunc, hgm, hgl, hgmet, hgr, hglog, hgg, hgd,
      delKey_of_mem mt "module_index" hshm.1,
      delKey_of_mem lt "_label_index" hshl.1,
      delKey_of_mem met "method_index" hshmet.1,
      delKey_of_mem rt "repo_index" hshr.1,
      delKey_of_mem gt "_group_index" hshg.1,
      Option.bind_eq_bind, Option.some_bind]
  refine ⟨r, hrun.trans hr, hdates, ?_, htrips⟩
  intro hfree
  exact hlog2 log (dictGet_merged_log _ _ _ _ _ _ hfree)

/-- A value key bound (to the same entry) in every table that mentions it
survives the merge with that entry: later tables either agree or do not
bind it, so the overwrite is harmless. -/
theorem dictGet_merged_unique (module label method repo :
      List (String × PEntry)) (log : List Nat)
    (group : List (String × PEntry)) (v : String) (en : PEntry)
    (hndm : (module.map Prod.fst).Nodup)
    (hndl : (label.map Prod.fst).Nodup)
    (hndmet : (method.map Prod.fst).Nodup)
    (hndr : (repo.map Prod.fst).Nodup)
    (hndg : (group.map Prod.fst).Nodup)
    (hsome : v ∈ module.map Prod.fst ∨ v ∈ label.map Prod.fst ∨
      v ∈ method.map Prod.fst ∨ v ∈ repo.map Prod.fst ∨
      v ∈ group.map Prod.fst)
    (hall : ∀ t ∈ [module, label, method, repo, group],
      v ∈ t.map Prod.fst → dictGet t v = some en)
    (hlogne : v ≠ "log_counts_per_hour") :
    dictGet (mergedColumns module label method repo log group) v
      = some en := by
  rw [mergedColumns]
  by_cases hg : v ∈ group.map Prod.fst
  · exact dictGet_insertAll_of_get _ _ _ _ hndg (hall group (by simp) hg)
  · rw [dictGet_insertAll_of_not_mem _ _ _ hg]
    rw [dictGet_insertAll_of_not_mem _ _ _ (by simpa using hlogne)]
    by_cases hr : v ∈ repo.map Prod.fst
    · exact dictGet_insertAll_of_get _ _ _ _ hndr (hall repo (by simp) hr)
    · rw [dictGet_insertAll_of_not_mem _ _ _ hr]
      by_cases hmet : v ∈ method.map Prod.fst
      · exact dictGet_insertAll_of_get _ _ _ _ hndmet
          (hall method (by simp) hmet)
      · rw [dictGet_insertAll_of_not_mem _ _ _ hmet]
        by_cases hlab : v ∈ label.map Prod.fst
        · exact dictGet_insertAll_of_get _ _ _ _ hndl
            (hall label (by simp) hlab)
        · rw [dictGet_insertAll_of_not_mem _ _ _ hlab]
          by_cases hm : v ∈ module.map Prod.fst
          · exact dictGet_insertAll_of_get _ _ _ _ hndm
              (hall module (by simp) hm)
          · exfalso
            rcases hsome with h | h | h | h | h <;> contradiction

/-- C3 (counterexample): re-aggregation is not lossless for every artifact
and every dimension value present in its tables.  When the value "X"
occurs in both the module and the label table, the dict merge keeps only
the label's "X" column, so the daily module count for "X" sums to 10
while its hourly counts sum to 1. -/
theorem c3_counterexample :
    ∃ r, sum_by_day c3g = some r ∧
      dictGet c3mt "X" = some (PEntry.counts [1, 0]) ∧
      ([1, 0] : List Nat).sum = 1 ∧
      dictGet r.module_counts "X" = some (PEntry.counts [10]) ∧
      ([10] : List Nat).sum ≠ 1 :=
  ⟨_, rfl, rfl, rfl, rfl, by decide⟩

/-- C3 (amended): for a well-shaped artifact and a dimension value `v`
that is not an index-key or log-key name and whose key, wherever it occurs
among the merged tables, is bound to the same hourly counts `hl`, the
daily and the monthly re-aggregated counts for `v` each sum to the sum of
`hl`: re-aggregation is a pure lossless sum for such values. -/
theorem c3_amended (g : LoadedGraph)
    (mt lt met rt gt merged : List (String × PEntry)) (log : List Nat)
    (ds : List String)
    (hgm : g.module_counts_per_hour = some mt)
    (hgl : g.label_counts_per_hour = some lt)
    (hgmet : g.method_counts_per_hour = some met)
    (hgr : g.repo_counts_per_hour = some rt)
    (hglog : g.log_counts_per_hour = some log)
    (hgg : g.group_counts_per_hour = some gt)
    (hgd : g.dates = some ds)
    (hmg : merged = mergedColumns (delFirst mt "module_index")
      (delFirst lt "_label_index") (delFirst met "method_index")
      (delFirst rt "repo_index") log (delFirst gt "_group_index"))
    (hndm : (mt.map Prod.fst).Nodup) (hndl : (lt.map Prod.fst).Nodup)
    (hndmet : (met.map Prod.fst).Nodup) (hndr : (rt.map Prod.fst).Nodup)
    (hndg : (gt.map Prod.fst).Nodup)
    (hshm : tableShaped mt "module_index" ds.length)
    (hshl : tableShaped lt "_label_index" ds.length)
    (hshmet : tableShaped met "method_index" ds.length)
    (hshr : tableShaped rt "repo_index" ds.length)
    (hshg : tableShaped gt "_group_index" ds.length)
    (hloglen : log.length = ds.length)
    (hdate : "date" ∉ merged.map Prod.fst)
    (hres : ∀ q ∈ [(mt, "module_index"), (lt, "_label_index"),
      (met, "method_index"), (rt, "repo_index"), (gt, "_group_index")],
      ((dictGet q.1 q.2).all (fun en => (entryElems en).all
        (fun x => decide (pyStr x ∈ merged.map Prod.fst)))) = true)
    (trip : (List (String × PEntry)) × String ×
      (ReAggResult → List (String × PEntry)))
    (htrip : trip ∈ reaggTrips mt lt met rt gt)
    (en : PEntry) (hen : dictGet trip.1 trip.2.1 = some en)
    (v : String) (hl : List Nat)
    (hvin : v ∈ (entryElems en).map pyStr)
    (hown : dictGet trip.1 v = some (PEntry.counts hl))
    (hvne : v ≠ trip.2.1)
    (hlogne : v ≠ "log_counts_per_hour")
    (huniq : ∀ t ∈ [delFirst mt "module_index", delFirst lt "_label_index",
      delFirst met "method_index", delFirst rt "repo_index",
      delFirst gt "_group_index"], v ∈ t.map Prod.fst →
      dictGet t v = some (PEntry.counts hl)) :
    ∃ rd rm dl ml, sum_by_day g = some rd ∧ sum_by_month g = some rm ∧
      dictGet (trip.2.2 rd) v = some (PEntry.counts dl) ∧
      dictGet (trip.2.2 rm) v = some (PEntry.counts ml) ∧
      dl.sum = hl.sum ∧ ml.sum = hl.sum := by
  have howndel : dictGet (delFirst trip.1 trip.2.1) v
      = some (PEntry.counts hl) := by
    rw [dictGet_delFirst_ne trip.1 trip.2.1 v hvne]
    exact hown
  have hvmem : v ∈ (delFirst trip.1 trip.2.1).map Prod.fst := by
    refine (dictGet_isSome_iff _ _).mp ?_
    rw [howndel]
    rfl
  have hpair := dictGet_mem trip.1 v (PEntry.counts hl) hown
  have hlen : hl.length = ds.length := by
    have h := htrip
    simp only [reaggTrips, List.mem_cons, List.not_mem_nil, or_false] at h
    have step : ∀ (hsh : (v, PEntry.counts hl).1 = trip.2.1 ∨
        entryCountsLen (v, PEntry.counts hl).2 ds.length = true),
        hl.length = ds.length := by
      intro hsh
      rcases hsh with he | he
      · exact absurd he hvne
      · obtain ⟨l2, hel, hll⟩ := (entryCountsLen_iff _ _).mp he
        cases hel
        exact hll
    rcases h with rfl | rfl | rfl | rfl | rfl
    · exact step (hshm.2 _ hpair)
    · exact step (hshl.2 _ hpair)
    · exact step (hshmet.2 _ hpair)
    · exact step (hshr.2 _ hpair)
    · exact step (hshg.2 _ hpair)
  have hmv : dictGet merged v = some (PEntry.counts hl) := by
    subst hmg
    refine dictGet_merged_unique _ _ _ _ log _ v _
      (nodup_keys_delFirst mt _ hndm) (nodup_keys_delFirst lt _ hndl)
      (nodup_keys_delFirst met _ hndmet) (nodup_keys_delFirst rt _ hndr)
      (nodup_keys_delFirst gt _ hndg) ?_ huniq hlogne
    have h := htrip
    simp only [reaggTrips, List.mem_cons, List.not_mem_nil, or_false] at h
    rcases h with rfl | rfl | rfl | rfl | rfl
    · exact Or.inl hvmem
    · exact Or.inr (Or.inl hvmem)
    · exact Or.inr (Or.inr (Or.inl hvmem))
    · exact Or.inr (Or.inr (Or.inr (Or.inl hvmem)))
    · exact Or.inr (Or.inr (Or.inr (Or.inr hvmem)))
  obtain ⟨rd, hrd, _, _, htD⟩ := sum_by_trunc_spec 10 g mt lt met rt gt
    merged log ds hgm hgl hgmet hgr hglog hgg hgd hmg hndm hndl hndmet
    hndr hndg hshm hshl hshmet hshr hshg hloglen hdate hres
  obtain ⟨rm, hrm, _, _, htM⟩ := sum_by_trunc_spec 7 g mt lt met rt gt
    merged log ds hgm hgl hgmet hgr hglog hgg hgd hmg hndm hndl hndmet
    hndr hndg hshm hshl hshmet hshr hshg hloglen hdate hres
  refine ⟨rd, rm, _, _, hrd, hrm,
    htD trip htrip en hen v hl hvin hmv,
    htM trip htrip en hen v hl hvin hmv, ?_, ?_⟩
  · exact aggColumn_sum (ds.map (fun d => d.take 10)) hl
      (by rw [List.length_map]; exact hlen.symm)
  · exact aggColumn_sum (ds.map (fun d => d.take 7)) hl
      (by rw [List.length_map]; exact hlen.symm)

/-- C3 amended, witnessed on a concrete collision-free artifact. -/
theorem c3_amended_witness :
    ∃ rd rm dl ml, sum_by_day c3w = some rd ∧ sum_by_month c3w = some rm ∧
      dictGet (rd.module_counts) "X" = some (PEntry.counts dl) ∧
      dictGet (rm.module_counts) "X" = some (PEntry.counts ml) ∧
      dl.sum = ([1, 2] : List Nat).sum ∧
      ml.sum = ([1, 2] : List Nat).sum :=
  c3_amended c3w c3wmt [("_label_index", PEntry.idx [])]
    [("method_index", PEntry.idx [])] [("repo_index", PEntry.idx [])]
    [("_group_index", PEntry.idx [])]
    (mergedColumns (delFirst c3wmt "module_index")
      (delFirst [("_label_index", PEntry.idx [])] "_label_index")
      (delFirst [("method_index", PEntry.idx [])] "method_index")
      (delFirst [("repo_index", PEntry.idx [])] "repo_index") [3, 4]
      (delFirst [("_group_index", PEntry.idx [])] "_group_index"))
    [3, 4] ["2024-01-01-00", "2024-01-01-01"]
    rfl rfl rfl rfl rfl rfl rfl rfl
    (by decide) (by decide) (by decide) (by decide) (by decide)
    ⟨by decide, by decide⟩ ⟨by decide, by decide⟩ ⟨by decide, by decide⟩
    ⟨by decide, by decide⟩ ⟨by decide, by decide⟩
    (by decide) (by decide) (by decide)
    (c3wmt, "module_index", ReAggResult.module_counts)
    (List.mem_cons_self _ _)
    (PEntry.idx [some (JVal.str "X")]) rfl
    "X" [1, 2] (by decide) rfl (by decide) (by decide) (by decide)

/-- C8 (counterexample): the coarse `dates` axis is not in
first-appearance order.  `groupby("date").sum()` sorts the group keys, so
hourly labels `2024-01-02-00, 2024-01-01-00` yield the daily axis
`[2024-01-01, 2024-01-02]`, not the first-appearance order
`[2024-01-02, 2024-01-01]`. -/
theorem c8_counterexample :
    ∃ r, sum_by_day c8g = some r ∧
      uniqueFS ((["2024-01-02-00", "2024-01-01-00"] : List String).map
        (fun d => d.take 10)) = ["2024-01-02", "2024-01-01"] ∧
      r.dates = ["2024-01-01", "2024-01-02"] ∧
      r.dates ≠ ["2024-01-02", "2024-01-01"] ∧
      r.log_counts = [2, 1] :=
  ⟨_, rfl, rfl, rfl, by decide, rfl⟩

/-- C8 (amended): for a well-shaped artifact the coarse `dates` axis lists
the distinct truncated labels in ascending order; this coincides with
first-appearance order exactly when the coarse labels already appear
weakly ascending in the hourly `dates` (the hypotheses `hs10`/`hs7`), and
then each coarse count — in the flat log sequence and in every dimension
column — is the sum of the hourly counts sharing that coarse label
(`aggColumn` maps each coarse label to the sum of the hourly counts
paired with it). -/
theorem c8_amended (g : LoadedGraph)
    (mt lt met rt gt merged : List (String × PEntry)) (log : List Nat)
    (ds : List String)
    (hgm : g.module_counts_per_hour = some mt)
    (hgl : g.label_counts_per_hour = some lt)
    (hgmet : g.method_counts_per_hour = some met)
    (hgr : g.repo_counts_per_hour = some rt)
    (hglog : g.log_counts_per_hour = some log)
    (hgg : g.group_counts_per_hour = some gt)
    (hgd : g.dates = some ds)
    (hmg : merged = mergedColumns (delFirst mt "module_index")
      (delFirst lt "_label_index") (delFirst met "method_index")
      (delFirst rt "repo_index") log (delFirst gt "_group_index"))
    (hndm : (mt.map Prod.fst).Nodup) (hndl : (lt.map Prod.fst).Nodup)
    (hndmet : (met.map Prod.fst).Nodup) (hndr : (rt.map Prod.fst).Nodup)
    (hndg : (gt.map Prod.fst).Nodup)
    (hshm : tableShaped mt "module_index" ds.length)
    (hshl : tableShaped lt "_label_index" ds.length)
    (hshmet : tableShaped met "method_index" ds.length)
    (hshr : tableShaped rt "repo_index" ds.length)
    (hshg : tableShaped gt "_group_index" ds.length)
    (hloglen : log.length = ds.length)
    (hdate : "date" ∉ merged.map Prod.fst)
    (hres : ∀ q ∈ [(mt, "module_index"), (lt, "_label_index"),
      (met, "method_index"), (rt, "repo_index"), (gt, "_group_index")],
      ((dictGet q.1 q.2).all (fun en => (entryElems en).all
        (fun x => decide (pyStr x ∈ merged.map Prod.fst)))) = true)
    (hfree : "log_counts_per_hour"
      ∉ (delFirst gt "_group_index").map Prod.fst)
    (hs10 : (ds.map (fun d => d.take 10)).Pairwise
      (fun a b => strLt b a = false))
    (hs7 : (ds.map (fun d => d.take 7)).Pairwise
      (fun a b => strLt b a = false)) :
    ∃ rd rm, sum_by_day g = some rd ∧ sum_by_month g = some rm ∧
      rd.dates = uniqueFS (ds.map (fun d => d.take 10)) ∧
      rm.dates = uniqueFS (ds.map (fun d => d.take 7)) ∧
      rd.log_counts = aggColumn (ds.map (fun d => d.take 10)) log
        (uniqueFS (ds.map (fun d => d.take 10))) ∧
      rm.log_counts = aggColumn (ds.map (fun d => d.take 7)) log
        (uniqueFS (ds.map (fun d => d.take 7))) ∧
      (∀ trip ∈ reaggTrips mt lt met rt gt,
        ∀ en, dictGet trip.1 trip.2.1 = some en →
        ∀ v hl, v ∈ (entryElems en).map pyStr →
          dictGet merged v = some (PEntry.counts hl) →
          dictGet (trip.2.2 rd) v = some (PEntry.counts
            (aggColumn (ds.map (fun d => d.take 10)) hl
              (uniqueFS (ds.map (fun d => d.take 10))))) ∧
          dictGet (trip.2.2 rm) v = some (PEntry.counts
            (aggColumn (ds.map (fun d => d.take 7)) hl
              (uniqueFS (ds.map (fun d => d.take 7)))))) := by
  obtain ⟨rd, hrd, hdatesD, hlogD, htD⟩ := sum_by_trunc_spec 10 g mt lt
    met rt gt merged log ds hgm hgl hgmet hgr hglog hgg hgd hmg hndm hndl
    hndmet hndr hndg hshm hshl hshmet hshr hshg hloglen hdate hres
  obtain ⟨rm, hrm, hdatesM, hlogM, htM⟩ := sum_by_trunc_spec 7 g mt lt
    met rt gt merged log ds hgm hgl hgmet hgr hglog hgg hgd hmg hndm hndl
    hndmet hndr hndg hshm hshl hshmet hshr hshg hloglen hdate hres
  rw [sortDedup_eq_uniqueFS _ hs10] at hdatesD
  rw [sortDedup_eq_uniqueFS _ hs7] at hdatesM
  refine ⟨rd, rm, hrd, hrm, hdatesD, hdatesM, ?_, ?_, ?_⟩
  · rw [hlogD hfree, sortDedup_eq_uniqueFS _ hs10]
  · rw [hlogM hfree, sortDedup_eq_uniqueFS _ hs7]
  · intro trip htrip en hen v hl hvin hmv
    refine ⟨?_, ?_⟩
    · rw [← sortDedup_eq_uniqueFS _ hs10]
      exact htD trip htrip en hen v hl hvin hmv
    · rw [← sortDedup_eq_uniqueFS _ hs7]
      exact htM trip htrip en hen v hl hvin hmv

/-- C8 amended, witnessed on a concrete ascending artifact. -/
theorem c8_amended_witness :
    ∃ rd rm, sum_by_day c8w = some rd ∧ sum_by_month c8w = some rm ∧
      rd.dates = uniqueFS
        ((["2024-01-01-00", "2024-01-01-01", "2024-01-02-00"] :
          List String).map (fun d => d.take 10)) ∧
      rm.dates = uniqueFS
        ((["2024-01-01-00", "2024-01-01-01", "2024-01-02-00"] :
          List String).map (fun d => d.take 7)) ∧
      rd.log_counts = aggColumn
        ((["2024-01-01-00", "2024-01-01-01", "2024-01-02-00"] :
          List String).map (fun d => d.take 10)) [4, 5, 6]
        (uniqueFS ((["2024-01-01-00", "2024-01-01-01", "2024-01-02-00"] :
          List String).map (fun d => d.take 10))) ∧
      rm.log_counts = aggColumn
        ((["2024-01-01-00", "2024-01-01-01", "2024-01-02-00"] :
          List String).map (fun d => d.take 7)) [4, 5, 6]
        (uniqueFS ((["2024-01-01-00", "2024-01-01-01", "2024-01-02-00"] :
          List String).map (fun d => d.take 7))) ∧
      (∀ trip ∈ reaggTrips c8wmt [("_label_index", PEntry.idx [])]
          [("method_index", PEntry.idx [])] [("repo_index", PEntry.idx [])]
          [("_group_index", PEntry.idx [])],
        ∀ en, dictGet trip.1 trip.2.1 = some en →
        ∀ v hl, v ∈ (entryElems en).map pyStr →
          dictGet c8wmerged v = some (PEntry.counts hl) →
          dictGet (trip.2.2 rd) v = some (PEntry.counts
            (aggColumn ((["2024-01-01-00", "2024-01-01-01",
              "2024-01-02-00"] : List String).map (fun d => d.take 10)) hl
              (uniqueFS ((["2024-01-01-00", "2024-01-01-01",
                "2024-01-02-00"] : List String).map
                (fun d => d.take 10))))) ∧
          dictGet (trip.2.2 rm) v = some (PEntry.counts
            (aggColumn ((["2024-01-01-00", "2024-01-01-01",
              "2024-01-02-00"] : List String).map (fun d => d.take 7)) hl
              (uniqueFS ((["2024-01-01-00", "2024-01-01-01",
                "2024-01-02-00"] : List String).map
                (fun d => d.take 7)))))) :=
  c8_amended c8w c8wmt [("_label_index", PEntry.idx [])]
    [("method_index", PEntry.idx [])] [("repo_index", PEntry.idx [])]
    [("_group_index", PEntry.idx [])] c8wmerged [4, 5, 6]
    ["2024-01-01-00", "2024-01-01-01", "2024-01-02-00"]
    rfl rfl rfl rfl rfl rfl rfl rfl
    (by decide) (by decide) (by decide) (by decide) (by decide)
    ⟨by decide, by decide⟩ ⟨by decide, by decide⟩ ⟨by decide, by decide⟩
    ⟨by decide, by decide⟩ ⟨by decide, by decide⟩
    (by decide) (by decide) (by decide) (by decide)
    (by decide) (by decide)

theorem delKey_some_mem {K V : Type} [DecidableEq K]
    (d : List (K × V)) (k : K) (d2 : List (K × V))
    (h : delKey d k = some d2) : k ∈ d.map Prod.fst := by
  rw [delKey] at h
  by_cases hc : (d.find? (fun p => p.1 = k)).isSome
  · rw [List.find?_isSome] at hc
    obtain ⟨p, hp, hk⟩ := hc
    rw [decide_eq_true_eq] at hk
    exact List.mem_map.mpr ⟨p, hp, hk⟩
  · rw [if_neg hc] at h
    cases h

/-- Success of `sum_by_trunc` forces every top-level artifact key to be
present and every dimension table to contain its index key: each of these
is read inside the `try:` block, and its absence raises into the
`except:` clause. -/
theorem sum_by_trunc_some_inv (w : Nat) (g : LoadedGraph) (r : ReAggResult)
    (h : sum_by_trunc w g = some r) :
    ∃ mt lt met rt log gt ds,
      g.module_counts_per_hour = some mt ∧
      "module_index" ∈ mt.map Prod.fst ∧
      g.label_counts_per_hour = some lt ∧
      "_label_index" ∈ lt.map Prod.fst ∧
      g.method_counts_per_hour = some met ∧
      "method_index" ∈ met.map Prod.fst ∧
      g.repo_counts_per_hour = some rt ∧
      "repo_index" ∈ rt.map Prod.fst ∧
      g.log_counts_per_hour = some log ∧
      g.group_counts_per_hour = some gt ∧
      "_group_index" ∈ gt.map Prod.fst ∧
      g.dates = some ds := by
  rw [sum_by_trunc] at h
  simp only [Option.bind_eq_bind] at h
  obtain ⟨mt, hmt, h⟩ := Option.bind_eq_some.mp h
  obtain ⟨module, hmod, h⟩ := Option.bind_eq_some.mp h
  obtain ⟨lt, hlt, h⟩ := Option.bind_eq_some.mp h
  obtain ⟨label, hlab, h⟩ := Option.bind_eq_some.mp h
  obtain ⟨met, hmet, h⟩ := Option.bind_eq_some.mp h
  obtain ⟨method, hmeth, h⟩ := Option.bind_eq_some.mp h
  obtain ⟨rt, hrt, h⟩ := Option.bind_eq_some.mp h
  obtain ⟨repo, hrep, h⟩ := Option.bind_eq_some.mp h
  obtain ⟨log, hlog, h⟩ := Option.bind_eq_some.mp h
  obtain ⟨gt, hgt, h⟩ := Option.bind_eq_some.mp h
  obtain ⟨group, hgrp, h⟩ := Option.bind_eq_some.mp h
  obtain ⟨ds, hds, h⟩ := Option.bind_eq_some.mp h
  exact ⟨mt, lt, met, rt, log, gt, ds, hmt,
    delKey_some_mem mt "module_index" module hmod, hlt,
    delKey_some_mem lt "_label_index" label hlab, hmet,
    delKey_some_mem met "method_index" method hmeth, hrt,
    delKey_some_mem rt "repo_index" repo hrep, hlog, hgt,
    delKey_some_mem gt "_group_index" group hgrp, hds⟩

theorem sum_by_trunc_missing (w : Nat) (g : LoadedGraph)
    (h : missingKey g) : sum_by_trunc w g = none := by
  cases hres : sum_by_trunc w g with
  | none => rfl
  | some r =>
    exfalso
    obtain ⟨mt, lt, met, rt, log, gt, ds, hmt, hmtk, hlt, hltk, hmet,
      hmetk, hrt, hrtk, hlog, hgt, hgtk, hds⟩ :=
      sum_by_trunc_some_inv w g r hres
    rcases h with h | h | h | h | h | h | h | h | h | h | h | h
    · rw [h] at hds; cases hds
    · rw [h] at hlog; cases hlog
    · rw [h] at hmt; cases hmt
    · rw [h] at hlt; cases hlt
    · rw [h] at hmet; cases hmet
    · rw [h] at hrt; cases hrt
    · rw [h] at hgt; cases hgt
    · obtain ⟨t, h1, h2⟩ := h
      rw [h1] at hmt
      cases hmt
      exact h2 hmtk
    · obtain ⟨t, h1, h2⟩ := h
      rw [h1] at hlt
      cases hlt
      exact h2 hltk
    · obtain ⟨t, h1, h2⟩ := h
      rw [h1] at hmet
      cases hmet
      exact h2 hmetk
    · obtain ⟨t, h1, h2⟩ := h
      rw [h1] at hrt
      cases hrt
      exact h2 hrtk
    · obtain ⟨t, h1, h2⟩ := h
      rw [h1] at hgt
      cases hgt
      exact h2 hgtk

/-- C9 (counterexample): a missing expected key does not always make the
re-aggregation report failure.  The module table's index lists "X" but the
table lacks the key "X"; because the label table binds "X", the lookup in
the merged frame succeeds, and `sum_by_day` silently returns a result
whose module column for "X" is the label dimension's data. -/
theorem c9_counterexample :
    ∃ r, sum_by_day c9g = some r ∧
      "X" ∉ c9gmt.map Prod.fst ∧
      dictGet r.module_counts "X" = some (PEntry.counts [7]) :=
  ⟨_, rfl, by decide, rfl⟩

/-- C9 (amended): for every loaded artifact missing a structural key — a
top-level key absent, or an index key absent from its dimension table —
both `sum_by_day` and `sum_by_month` return the explicit error value
(`False`, modelled as `none`) rather than raising or returning a partial
result.  (The counterexample shows this does not extend to a missing
value key that another table shadows.) -/
theorem c9_amended (g : LoadedGraph) (h : missingKey g) :
    sum_by_day g = none ∧ sum_by_month g = none :=
  ⟨sum_by_trunc_missing 10 g h, sum_by_trunc_missing 7 g h⟩

/-- C9 amended, witnessed on an artifact with no `dates` key. -/
theorem c9_amended_witness :
    sum_by_day c9w = none ∧ sum_by_month c9w = none :=
  c9_amended c9w (Or.inl rfl)

end DataVis
